import Mathlib

/-!
Verification of the Conlang Studio service core
(`src/services/geminiService.ts`) against its natural-language
specification.

The TypeScript source is shallowly embedded here:

* JavaScript JSON values are the inductive `Json` below.  JSON numbers are
  modelled as integers (every number appearing in the claims is integral);
  `JSON.parse` / `JSON.stringify` are modelled by the executable
  `Json.parseText` / `Json.serialize` pair, with the standard escape set and
  `\uXXXX` escapes for control characters.  The JavaScript value
  `undefined` gets its own constructor because property access on objects
  that lack a key yields it.
* The remote model client (`model.generateContent` followed by
  `response.text()`) is an injected adapter `Gen`: it receives the
  zero-based index of the call within the operation and the prompt string,
  and returns either the response text or a transport-error message.  Each
  operation additionally returns the list of prompts it actually sent, in
  order, so that "how many network calls were issued" is observable.
* Thrown JavaScript errors are `Except String` values carrying the
  error message; a `try`/`catch` block is a `match` on that value.
-/

namespace ConlangStudio

/-- JavaScript values that can flow through this service: the six JSON
value shapes plus `undefined`.  Numbers are modelled as integers. -/
inductive Json where
  | null : Json
  | undef : Json
  | bool : Bool → Json
  | num : Int → Json
  | str : String → Json
  | arr : List Json → Json
  | obj : List (String × Json) → Json

/-- The left curly-brace character, written by code point to keep brace
characters out of character literals. -/
def lcurl : Char := Char.ofNat 123

/-- The right curly-brace character. -/
def rcurl : Char := Char.ofNat 125

/-- The backtick character, written by code point. -/
def btick : Char := Char.ofNat 96

/-- Structural size of a `Json` value, used for induction. -/
def jsize : Json → Nat
  | .null => 1
  | .undef => 1
  | .bool _ => 1
  | .num _ => 1
  | .str _ => 1
  | .arr xs => 1 + jsizeList xs
  | .obj kvs => 1 + jsizeObj kvs
where
  /-- Size of a list of values. -/
  jsizeList : List Json → Nat
    | [] => 0
    | x :: xs => jsize x + 1 + jsizeList xs
  /-- Size of a member list. -/
  jsizeObj : List (String × Json) → Nat
    | [] => 0
    | (_, v) :: kvs => jsize v + 1 + jsizeObj kvs

/-- JSON whitespace characters (also the whitespace relevant to the
`trim` calls in the source). -/
def isJsonWs (c : Char) : Bool :=
  c = ' ' || c = '\t' || c = '\n' || c = '\r'

/-- Decimal digit test on code points (the digit test this model uses). -/
def isDigitCh (c : Char) : Bool := 48 ≤ c.toNat && c.toNat ≤ 57

/-- Hexadecimal digit character for a value below 16 (lower case). -/
def hexDigit (n : Nat) : Char :=
  if n < 10 then Char.ofNat (48 + n) else Char.ofNat (87 + n)

/-- Value of a hexadecimal digit character, if it is one. -/
def hexVal (c : Char) : Option Nat :=
  if 48 ≤ c.toNat ∧ c.toNat ≤ 57 then some (c.toNat - 48)
  else if 97 ≤ c.toNat ∧ c.toNat ≤ 102 then some (c.toNat - 87)
  else if 65 ≤ c.toNat ∧ c.toNat ≤ 70 then some (c.toNat - 55)
  else none

/-- Decimal digit characters of a natural number, most significant first. -/
def natDigits (n : Nat) : List Char :=
  if n = 0 then ['0'] else ((Nat.digits 10 n).map (fun d => Char.ofNat (48 + d))).reverse

/-- `JSON.stringify` escaping of one string character. -/
def escChar (c : Char) : List Char :=
  if c = '"' then ['\\', '"']
  else if c = '\\' then ['\\', '\\']
  else if c = '\n' then ['\\', 'n']
  else if c = '\t' then ['\\', 't']
  else if c = '\r' then ['\\', 'r']
  else if c.toNat < 32 then ['\\', 'u', '0', '0', hexDigit (c.toNat / 16), hexDigit (c.toNat % 16)]
  else [c]

/-- `JSON.stringify` of a string, as characters. -/
def serStr (s : String) : List Char :=
  '"' :: (s.data.flatMap escChar) ++ ['"']

mutual
/-- Characters of the compact `JSON.stringify` serialization of a value.
(`undefined` never appears inside the values this model serializes.) -/
def serChars : Json → List Char
  | .null => ['n', 'u', 'l', 'l']
  | .undef => ['n', 'u', 'l', 'l']
  | .bool true => 't' :: ['r', 'u', 'e']
  | .bool false => 'f' :: ['a', 'l', 's', 'e']
  | .num n => if n < 0 then '-' :: natDigits n.natAbs else natDigits n.natAbs
  | .str s => serStr s
  | .arr xs => '[' :: serCharsList xs ++ [']']
  | .obj kvs => lcurl :: serCharsObj kvs ++ [rcurl]

/-- Comma-separated serialization of array elements. -/
def serCharsList : List Json → List Char
  | [] => []
  | [x] => serChars x
  | x :: y :: xs => serChars x ++ ',' :: serCharsList (y :: xs)

/-- Comma-separated serialization of object members. -/
def serCharsObj : List (String × Json) → List Char
  | [] => []
  | [(k, v)] => serStr k ++ ':' :: serChars v
  | (k, v) :: m :: kvs => serStr k ++ ':' :: serChars v ++ ',' :: serCharsObj (m :: kvs)
end

/-- `JSON.stringify` of a value, modelling the JavaScript builtin on the
integer-numbered fragment of JSON. -/
def Json.serialize (v : Json) : String := String.mk (serChars v)

/-- Drop leading JSON whitespace. -/
def skipWs (cs : List Char) : List Char := cs.dropWhile isJsonWs

/-- Un-escape a single-character escape sequence. -/
def escUn (c : Char) : Option Char :=
  if c = '"' then some '"'
  else if c = '\\' then some '\\'
  else if c = '/' then some '/'
  else if c = 'n' then some '\n'
  else if c = 't' then some '\t'
  else if c = 'r' then some '\r'
  else if c = 'b' then some (Char.ofNat 8)
  else if c = 'f' then some (Char.ofNat 12)
  else none

/-- Parse the body of a JSON string literal (the opening quote already
consumed): returns the decoded characters and the input after the closing
quote.  Literal control characters are rejected, as `JSON.parse` does. -/
def parseStrAux : List Char → Option (List Char × List Char)
  | [] => none
  | '"' :: rest => some ([], rest)
  | '\\' :: 'u' :: h1 :: h2 :: h3 :: h4 :: rest => do
      let a ← hexVal h1
      let b ← hexVal h2
      let c ← hexVal h3
      let d ← hexVal h4
      let code := ((a * 16 + b) * 16 + c) * 16 + d
      if code < 55296 then
        match parseStrAux rest with
        | some (s, r) => some (Char.ofNat code :: s, r)
        | none => none
      else none
  | '\\' :: e :: rest =>
      match escUn e with
      | some c =>
        match parseStrAux rest with
        | some (s, r) => some (c :: s, r)
        | none => none
      | none => none
  | c :: rest =>
      if c.toNat < 32 then none
      else
        match parseStrAux rest with
        | some (s, r) => some (c :: s, r)
        | none => none

/-- Numeric value of a list of decimal digit characters. -/
def natFromDigits (ds : List Char) : Nat :=
  ds.foldl (fun acc c => acc * 10 + (c.toNat - 48)) 0

/-- Parse a non-empty run of decimal digits. -/
def parseNat (cs : List Char) : Option (Nat × List Char) :=
  let ds := cs.takeWhile isDigitCh
  if ds = [] then none else some (natFromDigits ds, cs.dropWhile isDigitCh)

/-- Extend an object member list with one parsed member, modelling
JavaScript duplicate-key behaviour: the value of an existing key is
overwritten in place, a new key is appended. -/
def setKey : List (String × Json) → String → Json → List (String × Json)
  | [], k, v => [(k, v)]
  | (k0, v0) :: kvs, k, v =>
      if k0 = k then (k0, v) :: kvs else (k0, v0) :: setKey kvs k v

mutual
/-- Fuel-indexed JSON value parser modelling `JSON.parse`. -/
def parseVal : Nat → List Char → Option (Json × List Char)
  | 0, _ => none
  | fuel + 1, cs =>
    match skipWs cs with
    | [] => none
    | c :: rest =>
      if c = lcurl then
        match skipWs rest with
        | c2 :: rest2 =>
          if c2 = rcurl then some (.obj [], rest2)
          else parseMembers fuel (c2 :: rest2) []
        | [] => none
      else if c = '[' then
        match skipWs rest with
        | c2 :: rest2 =>
          if c2 = ']' then some (.arr [], rest2)
          else parseElems fuel (c2 :: rest2) []
        | [] => none
      else if c = '"' then
        match parseStrAux rest with
        | some (s, r) => some (.str (String.mk s), r)
        | none => none
      else if c = 't' then
        match rest with
        | 'r' :: 'u' :: 'e' :: r => some (.bool true, r)
        | _ => none
      else if c = 'f' then
        match rest with
        | 'a' :: 'l' :: 's' :: 'e' :: r => some (.bool false, r)
        | _ => none
      else if c = 'n' then
        match rest with
        | 'u' :: 'l' :: 'l' :: r => some (.null, r)
        | _ => none
      else if c = '-' then
        match parseNat rest with
        | some (n, r) => some (.num (-(n : Int)), r)
        | none => none
      else if isDigitCh c then
        match parseNat (c :: rest) with
        | some (n, r) => some (.num (n : Int), r)
        | none => none
      else none

/-- Parse the members of an object after its opening brace, the object
known to be non-empty. -/
def parseMembers : Nat → List Char → List (String × Json) → Option (Json × List Char)
  | 0, _, _ => none
  | fuel + 1, cs, acc =>
    match skipWs cs with
    | '"' :: rest =>
      match parseStrAux rest with
      | none => none
      | some (k, rest2) =>
        match skipWs rest2 with
        | ':' :: rest3 =>
          match parseVal fuel rest3 with
          | none => none
          | some (v, rest4) =>
            let acc2 := setKey acc (String.mk k) v
            match skipWs rest4 with
            | c :: rest5 =>
              if c = ',' then parseMembers fuel rest5 acc2
              else if c = rcurl then some (.obj acc2, rest5)
              else none
            | [] => none
        | _ => none
    | _ => none

/-- Parse the elements of an array after its opening bracket, the array
known to be non-empty. -/
def parseElems : Nat → List Char → List Json → Option (Json × List Char)
  | 0, _, _ => none
  | fuel + 1, cs, acc =>
    match parseVal fuel cs with
    | none => none
    | some (v, rest) =>
      match skipWs rest with
      | c :: rest2 =>
        if c = ',' then parseElems fuel rest2 (acc ++ [v])
        else if c = ']' then some (.arr (acc ++ [v]), rest2)
        else none
      | [] => none
end

/-- `JSON.parse`, modelled on the integer-numbered fragment of JSON:
`none` is a thrown `SyntaxError`. -/
def Json.parseText (s : String) : Option Json :=
  match parseVal (s.data.length + 1) s.data with
  | some (v, rest) => if skipWs rest = [] then some v else none
  | none => none

/-- First index of a character in a character list (`String.indexOf` for a
single-character needle; `none` is JavaScript's `-1`). -/
def firstIdxOf (c : Char) : List Char → Option Nat
  | [] => none
  | x :: rest => if x = c then some 0 else (firstIdxOf c rest).map (· + 1)

/-- Last index of a character in a character list (`String.lastIndexOf`). -/
def lastIdxOf (c : Char) : List Char → Option Nat
  | [] => none
  | x :: rest =>
    match lastIdxOf c rest with
    | some i => some (i + 1)
    | none => if x = c then some 0 else none

/-- `String.substring(a, b)` on character lists (uses with `a ≤ b` only). -/
def substringCh (cs : List Char) (a b : Nat) : List Char :=
  (cs.drop a).take (b - a)

/-- `String.trim` (the whitespace characters that occur in this model). -/
def trimCh (cs : List Char) : List Char :=
  ((cs.dropWhile isJsonWs).reverse.dropWhile isJsonWs).reverse

/-- Index of the first occurrence of `pat` as a contiguous sublist. -/
def findSub (pat : List Char) : List Char → Option Nat
  | [] => if pat.isPrefixOf [] then some 0 else none
  | c :: rest =>
      if pat.isPrefixOf (c :: rest) then some 0
      else (findSub pat rest).map (· + 1)

/-- The opening of a markdown JSON fence. -/
def fenceOpen : List Char := "```json\n".data

/-- The closing of a markdown JSON fence. -/
def fenceClose : List Char := "\n```".data

/-- First match of the fence pattern (the regex
`/```json\n([\s\S]*?)\n```/`): contents of the group, when the pattern
matches.  The regex matches at the earliest occurrence of the opening
followed (lazily) by the earliest later occurrence of the closing; when
the first opening has no closing after it, no later opening has one
either, so scanning only the first opening is faithful. -/
def fenceMatch (cs : List Char) : Option (List Char) :=
  match findSub fenceOpen cs with
  | none => none
  | some i =>
    let after := cs.drop (i + 8)
    match findSub fenceClose after with
    | none => none
    | some j => some (after.take j)

/-- Characters of the `["'\w\d]` class of the aggressive regex. -/
def isAggrKeyChar (c : Char) : Bool :=
  c = '"' || c = Char.ofNat 39 || c.isAlpha || c.isDigit || c = '_'

/-- Attempt the aggressive regex directly after an opening brace: greedy
whitespace, then the shortest key-character run reaching a colon, then the
lazy body up to the first closing brace.  (The whitespace, key and colon
character classes are pairwise disjoint, so the backtracking regex is this
deterministic scan.) -/
def aggrHere (rest : List Char) : Option (List Char) :=
  let ws := rest.takeWhile isJsonWs
  let r1 := rest.dropWhile isJsonWs
  let key := r1.takeWhile isAggrKeyChar
  let r2 := r1.dropWhile isAggrKeyChar
  match r2 with
  | c :: r3 =>
    if c = ':' then
      match firstIdxOf rcurl r3 with
      | some j => some (ws ++ key ++ ':' :: r3.take (j + 1))
      | none => none
    else none
  | [] => none

/-- First match of the aggressive regex `/{\s*["'\w\d]*?:[\s\S]*?}/`. -/
def aggrMatch : List Char → Option (List Char)
  | [] => none
  | c :: rest =>
    if c = lcurl then
      match aggrHere rest with
      | some m => some (lcurl :: m)
      | none => aggrMatch rest
    else aggrMatch rest

/-- Candidate selection of `safeParseJSON` (source lines 38-59): fenced
block contents — used only when the captured contents are truthy, i.e.
a non-empty string, as the source's `markdownMatch && markdownMatch[1]`
condition at line 41 requires — else first-brace-to-last-brace
substring, else the aggressive regex match, else the trimmed text. -/
def selectCandidate (text : List Char) : List Char :=
  match fenceMatch text with
  | some (c :: inner) => c :: inner
  | _ =>
    match firstIdxOf lcurl text, lastIdxOf rcurl text with
    | some f, some l =>
      if f < l then substringCh text f (l + 1)
      else match aggrMatch text with
        | some m => m
        | none => trimCh text
    | _, _ =>
      match aggrMatch text with
      | some m => m
      | none => trimCh text

/-- The message of the error thrown at source line 74. -/
def noStartMsg : String := "No valid JSON start found after aggressive cleaning."

/-- Stand-in message for the `SyntaxError` thrown by `JSON.parse`. -/
def syntaxErrMsg : String := "Unexpected token in JSON"

/-- Candidate clean-up of `safeParseJSON` (source lines 62-76): trim, and
if the candidate does not start with a brace or bracket, truncate to the
first of the two, preferring whichever occurs first; fail when neither
occurs. -/
def cleanCandidate (cs : List Char) : Except String (List Char) :=
  let t := trimCh cs
  if t.head? = some lcurl ∨ t.head? = some '[' then .ok t
  else
    match firstIdxOf '[' t, firstIdxOf lcurl t with
    | some bi, some ci => if bi < ci then .ok (t.drop bi) else .ok (t.drop ci)
    | some bi, none => .ok (t.drop bi)
    | none, some ci => .ok (t.drop ci)
    | none, none => .error noStartMsg

/-- `safeParseJSON` (source lines 36-83): select a candidate substring,
clean it up, and parse it; all failures are thrown errors. -/
def safeParseJSON (text : String) : Except String Json :=
  match cleanCandidate (selectCandidate text.data) with
  | .error e => .error e
  | .ok cs =>
    match Json.parseText (String.mk cs) with
    | some v => .ok v
    | none => .error syntaxErrMsg

/-- The diagnostic log entries produced by one `safeParseJSON` call: the
`catch` block logs the raw input text exactly when the call fails. -/
def safeParseJSONLog (text : String) : List String :=
  match safeParseJSON text with
  | .ok _ => []
  | .error _ => [text]

/-- A quote character (double or single). -/
def isQuoteCh (c : Char) : Bool := c = '"' || c = Char.ofNat 39

/-- One global pass of `replace(/^["']|["']$/g, "")`: remove a leading
quote character if present, then a trailing one from what remains. -/
def stripEdgeQuotes (cs : List Char) : List Char :=
  let cs1 := match cs with
    | c :: rest => if isQuoteCh c then rest else cs
    | [] => []
  match cs1.reverse with
  | c :: rest => if isQuoteCh c then rest.reverse else cs1
  | [] => []

/-- `getApiKey` (source lines 6-10): stored setting if truthy, else the
environment variable if truthy, else the empty string; then trimmed and
stripped of accidental edge quotes.  `stored` is
`localStorage.getItem(STORAGE_KEY)` (`none` is JavaScript `null`), `env`
is the build-time variable (`none` is `undefined`). -/
def getApiKey (stored env : Option String) : String :=
  let key := match stored with
    | some s => if s = "" then env.getD "" else s
    | none => env.getD ""
  String.mk (stripEdgeQuotes (trimCh key.data))

/-- The message of the `ConfigurationError` thrown by `getGenAI`. -/
def configErrMsg : String := "API Key not configured. Please set it in Settings."

/-- `e?.message || e?.toString() || "Unknown error"` for our modelled
errors, which always carry their message. -/
def jsErrMsg (m : String) : String := if m = "" then "Unknown error" else m

/-- The injected remote-model adapter: given the zero-based index of the
call within the operation and the prompt, return the response text or a
transport-error message (a rejected promise). -/
def Gen : Type := Nat → String → Except String String

/-- The lexicon-entry fields this service reads or writes.  `etymology`
is optional in the TypeScript interface (`none` is `undefined`). -/
structure LexiconEntry where
  id : String
  word : String
  ipa : String
  etymology : Option String := none
deriving DecidableEq, Repr

/-- Project-wide constraint descriptor. -/
structure ProjectConstraints where
  bannedSequences : List String
  allowedGraphemes : String
  phonotacticStructure : String
deriving DecidableEq, Repr

/-- A sound-change rule: a human-readable description string. -/
structure SoundChangeRule where
  rule : String
deriving DecidableEq, Repr

/-- The `{id, word, ipa}` projection sent in repair prompts. -/
def entryJson (e : LexiconEntry) : Json :=
  .obj [("id", .str e.id), ("word", .str e.word), ("ipa", .str e.ipa)]

/-- `String.intercalate` under the name JavaScript uses. -/
def joinSep (sep : String) (xs : List String) : String := String.intercalate sep xs

/-- The `rules` template literal of `repairLexicon` (source lines 123-128). -/
def repairRules (c : ProjectConstraints) : String :=
  "\n    CONSTRAINTS:\n    - Banned: "
    ++ (let j := joinSep ", " c.bannedSequences; if j = "" then "None" else j)
    ++ "\n    - Graphemes (Regex): "
    ++ (if c.allowedGraphemes = "" then "Any" else c.allowedGraphemes)
    ++ "\n    - Structure: "
    ++ (if c.phonotacticStructure = "" then "Free" else c.phonotacticStructure)
    ++ "\n    "

/-- The per-chunk repair prompt (source lines 141-145). -/
def repairPrompt (c : ProjectConstraints) (chunk : List LexiconEntry) : String :=
  "You are a linguistic repair engineer. \n\nTask: Fix the following constructed words so they comply with the rules below. \nRules:\n"
    ++ repairRules c
    ++ "\nKeep the phonological soul of the word while fixing violations.\n\nInput List (JSON):\n"
    ++ Json.serialize (.arr (chunk.map entryJson))
    ++ "\n\nOutput: Return a valid JSON array of objects with \"id\", \"word\", and \"ipa\"."

/-- Contiguous chunks of at most `n` items, the last possibly smaller:
the partition produced by `for (i = 0; i < len; i += n) slice(i, i + n)`. -/
def chunksOf (n : Nat) (l : List α) : List (List α) :=
  match n, l with
  | _, [] => []
  | 0, _ => []
  | m + 1, c :: tl => (c :: tl).take (m + 1) :: chunksOf (m + 1) ((c :: tl).drop (m + 1))
termination_by l.length
decreasing_by
  simp only [List.length_drop, List.length_cons]
  omega

/-- The typed result of `repairLexicon`. -/
structure RepairResult where
  success : Bool
  repairs : List Json
  message : Option String

/-- Message of the `TypeError` thrown by spreading a non-iterable. -/
def notIterableMsg : String := "repairedChunk is not iterable"

/-- The chunk loop of `repairLexicon` (source lines 137-150): sequential
calls, each chunk's parsed array spread into the accumulator; any thrown
error aborts the remaining chunks.  Returns the outcome and the prompts
sent, in order. -/
def repairChunks (gen : Gen) (c : ProjectConstraints) :
    Nat → List (List LexiconEntry) → Except String (List Json) × List String
  | _, [] => (.ok [], [])
  | k, chunk :: rest =>
    let p := repairPrompt c chunk
    match gen k p with
    | .error m => (.error m, [p])
    | .ok t =>
      match safeParseJSON t with
      | .error m => (.error m, [p])
      | .ok (.arr xs) =>
        let (r, log) := repairChunks gen c (k + 1) rest
        (r.map (xs ++ ·), p :: log)
      | .ok _ => (.error notIterableMsg, [p])

/-- `repairLexicon` (source lines 113-162). -/
def repairLexicon (stored env : Option String) (gen : Gen)
    (invalidEntries : List LexiconEntry) (constraints : ProjectConstraints) :
    RepairResult × List String :=
  if invalidEntries = [] then ({ success := true, repairs := [], message := none }, [])
  else if getApiKey stored env = "" then
    ({ success := false, repairs := [],
       message := some ("AI Repair Failed: " ++ jsErrMsg configErrMsg ++ ". Verifica tu API key en Settings.") }, [])
  else
    match repairChunks gen constraints 0 (chunksOf 15 invalidEntries) with
    | (.ok rs, log) => ({ success := true, repairs := rs, message := none }, log)
    | (.error m, log) =>
      ({ success := false, repairs := [],
         message := some ("AI Repair Failed: " ++ jsErrMsg m ++ ". Verifica tu API key en Settings.") }, log)

/-- `suggestIPA` (source lines 164-176). -/
def suggestIPA (stored env : Option String) (gen : Gen)
    (word phonologyDescription : String) : String × List String :=
  if getApiKey stored env = "" then ("/error/", [])
  else
    let p := "Given the following phonological rules/description: \"" ++ phonologyDescription
      ++ "\", provide the most likely IPA transcription for the word \"" ++ word
      ++ "\". Return ONLY the IPA string, enclosed in forward slashes."
    match gen 0 p with
    | .ok t => (String.mk (trimCh t.data), [p])
    | .error _ => ("/error/", [p])

/-- The no-words error message thrown at source line 205. -/
def noWordsMsg : String :=
  "No words could be generated. This might be due to overly restrictive constraints or an issue with the AI model. Please adjust your constraints and try again."

/-- The enrichment applied by the `catch` of `generateWords`. -/
def enrichGenErr (m : String) : String :=
  "Error generating words: " ++ (if m = "" then "Verifica tu API key en Settings" else m)

/-- `generateWords` (source lines 178-213): the only operation that
re-raises its failures, with an enriched message.  The `constraints`
string parameter is accepted and, as in the source, never used. -/
def generateWords (stored env : Option String) (gen : Gen)
    (count : Nat) (constraints vibe : String) (projectRules : Option ProjectConstraints) :
    Except String (List Json) × List String :=
  let _ := constraints
  if getApiKey stored env = "" then (.error (enrichGenErr configErrMsg), [])
  else
    let safeCount := min count 15
    let globalRulesPrompt := match projectRules with
      | none => ""
      | some pr =>
        let banned := if pr.bannedSequences ≠ [] then
          "Banned sequences: " ++ joinSep ", " pr.bannedSequences ++ "." else ""
        let allowed := if pr.allowedGraphemes ≠ "" then
          "Allowed characters (Regex): [" ++ pr.allowedGraphemes ++ "]." else ""
        let structureTxt := if pr.phonotacticStructure ≠ "" then
          "Must match Regex Structure: " ++ pr.phonotacticStructure else ""
        "STRICT RULES: " ++ banned ++ " " ++ allowed ++ " " ++ structureTxt
    let p := "Generate " ++ toString safeCount ++ " unique constructed words. Vibe: " ++ vibe
      ++ ". " ++ globalRulesPrompt ++ ". Return JSON array with \"word\" and \"ipa\"."
    match gen 0 p with
    | .error m => (.error (enrichGenErr m), [p])
    | .ok t =>
      match safeParseJSON t with
      | .error m => (.error (enrichGenErr m), [p])
      | .ok (.arr (x :: xs)) => (.ok (x :: xs), [p])
      | .ok _ => (.error (enrichGenErr noWordsMsg), [p])

/-- Message of the `TypeError` thrown by property access on `null` or
`undefined`. -/
def typeErrorMsg : String := "Cannot read properties of null"

/-- JavaScript property access restricted to the properties this service
reads: throws on `null`/`undefined`, looks the key up on objects, and
yields `undefined` on every other receiver. -/
def getProp : Json → String → Except String Json
  | .null, _ => .error typeErrorMsg
  | .undef, _ => .error typeErrorMsg
  | .obj kvs, k => .ok (match kvs.lookup k with | some v => v | none => .undef)
  | _, _ => .ok (.undef)

/-- Strict equality `v === s` against a known string. -/
def jsStrictEqStr (v : Json) (s : String) : Bool :=
  match v with
  | .str t => t = s
  | _ => false

/-- JavaScript truthiness of a value. -/
def jsTruthy : Json → Bool
  | .null => false
  | .undef => false
  | .bool b => b
  | .num n => n != 0
  | .str s => s != ""
  | .arr _ => true
  | .obj _ => true

mutual
/-- `Array.prototype.toString`: comma-joined elements, `null` and
`undefined` rendering as empty. -/
def jsCoerceArr : List Json → String
  | [] => ""
  | [x] => jsCoerceElem x
  | x :: y :: xs => jsCoerceElem x ++ "," ++ jsCoerceArr (y :: xs)

/-- One joined array element: as the element's string coercion, except
that `null` and `undefined` render as empty. -/
def jsCoerceElem : Json → String
  | .null => ""
  | .undef => ""
  | .bool true => "true"
  | .bool false => "false"
  | .num n => if n < 0 then "-" ++ toString n.natAbs else toString n.natAbs
  | .str s => s
  | .arr xs => jsCoerceArr xs
  | .obj _ => "[object Object]"
end

/-- JavaScript string coercion of a value, as applied by the `+`
operator in the etymology update. -/
def jsCoerceStr : Json → String
  | .null => "null"
  | .undef => "undefined"
  | .bool true => "true"
  | .bool false => "false"
  | .num n => if n < 0 then "-" ++ toString n.natAbs else toString n.natAbs
  | .str s => s
  | .arr xs => jsCoerceArr xs
  | .obj _ => "[object Object]"

/-- Modelling restriction: the source assigns raw model-output values
into string-typed fields without checking; this embedding treats a
non-string value reaching such an assignment as a failure, and every
theorem below stays within well-typed assignments. -/
def nonStringAssignMsg : String := "model output field is not a string"

/-- A fallback entry for index accesses the control flow has already
bounded (never reached with valid indices). -/
def defaultEntry : LexiconEntry := { id := "", word := "", ipa := "", etymology := none }

/-- The `results.forEach` body of `evolveWords` (source lines 237-247)
for a single result record: find the first entry of the current
accumulating lexicon whose word text strictly equals the record's
`originalWord`, and replace it by a freshly built entry with the
record's `newWord`/`newIPA` and the change log appended to the
etymology. -/
def evolveApply (lex : List LexiconEntry) (res : Json) : Except String (List LexiconEntry) := do
  let ow ← getProp res "originalWord"
  match lex.findIdx? (fun w => jsStrictEqStr ow w.word) with
  | none => pure lex
  | some i => do
    let nw ← getProp res "newWord"
    let ni ← getProp res "newIPA"
    let cl ← getProp res "changeLog"
    match nw, ni with
    | .str w, .str ipa =>
      let old := lex.getD i defaultEntry
      pure (lex.set i
        { old with word := w, ipa := ipa,
                   etymology := some ((old.etymology.getD "") ++ "; " ++ jsCoerceStr cl) })
    | _, _ => .error nonStringAssignMsg

/-- Message of the `TypeError` thrown by `forEach` on a non-array. -/
def forEachMsg : String := "results.forEach is not a function"

/-- Apply a whole chunk's result records in order. -/
def evolveMergeAll (lex : List LexiconEntry) (rs : List Json) : Except String (List LexiconEntry) :=
  rs.foldlM evolveApply lex

/-- The per-chunk evolution prompt (source line 234). -/
def evolvePrompt (rules : List SoundChangeRule) (chunk : List LexiconEntry) : String :=
  "Apply sound changes: " ++ joinSep "\n" (rules.map (fun r => r.rule))
    ++ ". Words: " ++ joinSep ", " (chunk.map (fun w => w.word))
    ++ ". Return JSON array of objects with \"originalWord\", \"newWord\", \"newIPA\", \"changeLog\"."

/-- The chunk loop of `evolveWords` (source lines 231-248), threading the
accumulating lexicon; any thrown error aborts the remaining chunks. -/
def evolveChunks (gen : Gen) (rules : List SoundChangeRule) :
    Nat → List (List LexiconEntry) → List LexiconEntry →
    Except String (List LexiconEntry) × List String
  | _, [], lex => (.ok lex, [])
  | k, chunk :: rest, lex =>
    let p := evolvePrompt rules chunk
    match gen k p with
    | .error m => (.error m, [p])
    | .ok t =>
      match safeParseJSON t with
      | .error m => (.error m, [p])
      | .ok (.arr rs) =>
        match evolveMergeAll lex rs with
        | .error m => (.error m, [p])
        | .ok lex2 =>
          let (r, log) := evolveChunks gen rules (k + 1) rest lex2
          (r, p :: log)
      | .ok _ => (.error forEachMsg, [p])

/-- `evolveWords` (source lines 215-254): chunked evolution over a copy
of the input; every caught error degrades to the original input list. -/
def evolveWords (stored env : Option String) (gen : Gen)
    (words : List LexiconEntry) (rules : List SoundChangeRule) :
    List LexiconEntry × List String :=
  match words, rules with
  | [], _ => (words, [])
  | _, [] => (words, [])
  | _ :: _, _ :: _ =>
    if getApiKey stored env = "" then (words, [])
    else
      match evolveChunks gen rules 0 (chunksOf 10 words) words with
      | (.ok lex, log) => (lex, log)
      | (.error _, log) => (words, log)

/-- The typed result of `processCommandAI`. -/
structure CommandResult where
  success : Bool
  modifiedCount : Nat
  newLexicon : Option (List LexiconEntry)
  message : Option String
deriving DecidableEq, Repr

/-- The bulk-command prompt (source line 270). -/
def commandPrompt (instruction : String) (c : ProjectConstraints) : String :=
  "Apply bulk changes to lexicon. Instruction: \"" ++ instruction
    ++ "\". Constraints: " ++ c.allowedGraphemes
    ++ ". Return JSON object with \"modifications\" array containing objects with \"id\" and changed fields."

/-- Message of the `TypeError` thrown by `.find` on a non-array. -/
def findNotFunMsg : String := "mods.find is not a function"

/-- `mods.find(m => m.id === entry.id)`: first record whose `id` strictly
equals the entry identifier; property access on a `null` record throws. -/
def findMod (mods : List Json) (id : String) : Except String (Option Json) :=
  match mods with
  | [] => .ok none
  | m :: rest => do
    let mid ← getProp m "id"
    if jsStrictEqStr mid id then .ok (some m) else findMod rest id

/-- Overwrite a string field when the record carries the key. -/
def mergeStrField (old : String) : Json → Except String String
  | .undef => .ok old
  | .str s => .ok s
  | _ => .error nonStringAssignMsg

/-- Overwrite an optional string field when the record carries the key. -/
def mergeOptStrField (old : Option String) : Json → Except String (Option String)
  | .undef => .ok old
  | .str s => .ok (some s)
  | _ => .error nonStringAssignMsg

/-- The spread merge `{...entry, ...mod}` projected to the tracked
lexicon-entry fields: each field the record carries overwrites the
entry's. -/
def applyMod (e : LexiconEntry) (m : Json) : Except String LexiconEntry := do
  let idv ← getProp m "id"
  let wv ← getProp m "word"
  let iv ← getProp m "ipa"
  let ev ← getProp m "etymology"
  let id2 ← mergeStrField e.id idv
  let w2 ← mergeStrField e.word wv
  let i2 ← mergeStrField e.ipa iv
  let e2 ← mergeOptStrField e.etymology ev
  pure { id := id2, word := w2, ipa := i2, etymology := e2 }

/-- The merge of `processCommandAI` (source lines 274-277): map over the
caller's lexicon, each entry replaced by its merge with the first
matching record, entries without a match passing through unchanged. -/
def commandMerge (lexicon : List LexiconEntry) (mods : List Json) :
    Except String (List LexiconEntry) :=
  lexicon.mapM (fun e => do
    match ← findMod mods e.id with
    | some m => applyMod e m
    | none => pure e)

/-- The failure result shape of `processCommandAI`'s `catch`. -/
def cmdFailure (m : Option String) : CommandResult :=
  { success := false, modifiedCount := 0, newLexicon := none, message := m }

/-- `processCommandAI` (source lines 256-283). -/
def processCommandAI (stored env : Option String) (gen : Gen)
    (lexicon : List LexiconEntry) (instruction : String) (constraints : ProjectConstraints) :
    CommandResult × List String :=
  if lexicon = [] then (cmdFailure none, [])
  else if getApiKey stored env = "" then (cmdFailure (some configErrMsg), [])
  else
    let p := commandPrompt instruction constraints
    match gen 0 p with
    | .error m => (cmdFailure (some m), [p])
    | .ok t =>
      match safeParseJSON t with
      | .error m => (cmdFailure (some m), [p])
      | .ok v =>
        match getProp v "modifications" with
        | .error m => (cmdFailure (some m), [p])
        | .ok mv =>
          match (if jsTruthy mv then mv else .arr []) with
          | .arr mods =>
            match commandMerge lexicon mods with
            | .error m => (cmdFailure (some m), [p])
            | .ok nl =>
              ({ success := true, modifiedCount := mods.length,
                 newLexicon := some nl, message := none }, [p])
          | _ => (cmdFailure (some findNotFunMsg), [p])

/-- `analyzeSyntax` (source lines 285-297).  The morphology argument is
embedded as its serialization, or the text `undefined` when absent. -/
def analyzeSyntaxOp (stored env : Option String) (gen : Gen)
    (sentence grammarRules : String) (morphology : Option Json) : String × List String :=
  if getApiKey stored env = "" then ("Error analyzing syntax. Verifica tu API key.", [])
  else
    let p := "Analyze sentence \"" ++ sentence ++ "\" using Grammar: " ++ grammarRules
      ++ ". Morphology: " ++ (match morphology with | some j => j.serialize | none => "undefined")
      ++ ". Provide gloss and AST."
    match gen 0 p with
    | .ok t => (t, [p])
    | .error _ => ("Error analyzing syntax. Verifica tu API key.", [p])

/-- The fully-shaped phonology configuration.  Sequence fields hold raw
values: the source does not validate element types. -/
structure PhonologyConfig where
  name : String
  description : String
  consonants : List Json
  vowels : List Json
  syllableStructure : String
  bannedCombinations : List Json

/-- The normalization step of `safeParsePhonologyConfig` (source lines
93-100): each string field keeps the source value exactly when it is a
string, else defaults to the empty string; each sequence field keeps the
source value exactly when it is an array, else defaults to the empty
sequence.  Property access throws on `null`. -/
def normalizePhonology (parsed : Json) : Except String PhonologyConfig := do
  let nm ← getProp parsed "name"
  let ds ← getProp parsed "description"
  let cs ← getProp parsed "consonants"
  let vs ← getProp parsed "vowels"
  let ss ← getProp parsed "syllableStructure"
  let bc ← getProp parsed "bannedCombinations"
  pure {
    name := match nm with | .str s => s | _ => "",
    description := match ds with | .str s => s | _ => "",
    consonants := match cs with | .arr xs => xs | _ => [],
    vowels := match vs with | .arr xs => xs | _ => [],
    syllableStructure := match ss with | .str s => s | _ => "",
    bannedCombinations := match bc with | .arr xs => xs | _ => [] }

/-- `safeParsePhonologyConfig` (source lines 88-108). -/
def safeParsePhonologyConfig (text : String) : Except String PhonologyConfig :=
  (safeParseJSON text).bind normalizePhonology

/-- The default configuration returned by `generatePhonology` on any
failure (source lines 318-325). -/
def defaultPhonology : PhonologyConfig :=
  { name := "Default Phonology",
    description := "Failed to generate phonology. Please check your API key and prompt.",
    consonants := [], vowels := [],
    syllableStructure := "CV", bannedCombinations := [] }

/-- The phonology prompt (source line 308). -/
def phonologyPrompt (description : String) : String :=
  "Create phonology from description: \"" ++ description
    ++ "\". Your response MUST be a JSON object that strictly adheres to the PhonologyConfig TypeScript interface, including all fields. If a field has no data, use an empty array for lists (e.g., `consonants`, `vowels`, `bannedCombinations`) or an empty string for strings (e.g., `name`, `description`, `syllableStructure`). DO NOT include any conversational text, markdown fences (e.g., ```json), or extra characters, just the raw JSON object. Example of a complete PhonologyConfig JSON object: \x7b\"name\":\"\", \"description\":\"\", \"consonants\":[], \"vowels\":[], \"syllableStructure\":\"\", \"bannedCombinations\":[]\x7d"

/-- `generatePhonology` (source lines 299-327): every failure path is
caught and replaced by the fixed default configuration. -/
def generatePhonology (stored env : Option String) (gen : Gen)
    (description : String) : PhonologyConfig × List String :=
  if getApiKey stored env = "" then (defaultPhonology, [])
  else
    let p := phonologyPrompt description
    match gen 0 p with
    | .error _ => (defaultPhonology, [p])
    | .ok t =>
      match safeParsePhonologyConfig t with
      | .ok cfg => (cfg, [p])
      | .error _ => (defaultPhonology, [p])

/-!
Heap-level embedding of the two merging operations.  Object identity is
what the no-mutation specification is about, so in this second embedding
entry objects and arrays live in an explicit store indexed by allocation
order, and an operation receives a *reference* to the caller's array.
Allocation appends; nothing in the source writes to an existing entry
object, and the only array assignment targets the local copy
`evolvedLexicon = [...words]`, which here is a freshly allocated array.
Intermediate states of that fresh array are not observable, so it is
committed to the store when the operation returns.
-/

/-- A store of lexicon-entry objects and of arrays of entry references;
a reference is the index at which the object was allocated. -/
structure Heap where
  entries : List LexiconEntry
  arrays : List (List Nat)

/-- Dereference an entry (callers only form valid references). -/
def heapEntry (h : Heap) (r : Nat) : LexiconEntry := h.entries.getD r defaultEntry

/-- `evolveApply` at heap level: the matched slot of the fresh evolved
array is redirected to a newly allocated entry object; the original
entry object is read, never written.  The flag records whether a
JavaScript error was thrown. -/
def evolveApplyH (ents : List LexiconEntry) (evRefs : List Nat) (res : Json) :
    Bool × List LexiconEntry × List Nat :=
  match getProp res "originalWord" with
  | .error _ => (false, ents, evRefs)
  | .ok ow =>
    match evRefs.findIdx? (fun r => jsStrictEqStr ow (ents.getD r defaultEntry).word) with
    | none => (true, ents, evRefs)
    | some i =>
      match getProp res "newWord", getProp res "newIPA", getProp res "changeLog" with
      | .ok (.str w), .ok (.str ipa), .ok cl =>
        let old := ents.getD (evRefs.getD i 0) defaultEntry
        let newEnt : LexiconEntry :=
          { old with word := w, ipa := ipa,
                     etymology := some ((old.etymology.getD "") ++ "; " ++ jsCoerceStr cl) }
        (true, ents ++ [newEnt], evRefs.set i ents.length)
      | .ok (.str _), .ok (.str _), .error _ => (false, ents, evRefs)
      | _, _, _ => (false, ents, evRefs)

/-- Apply a chunk's result records in order at heap level, stopping at
the first thrown error. -/
def evolveMergeAllH (ents : List LexiconEntry) (evRefs : List Nat) :
    List Json → Bool × List LexiconEntry × List Nat
  | [] => (true, ents, evRefs)
  | r :: rs =>
    match evolveApplyH ents evRefs r with
    | (true, e2, v2) => evolveMergeAllH e2 v2 rs
    | (false, e2, v2) => (false, e2, v2)

/-- The chunk loop of `evolveWords` at heap level. -/
def evolveChunksH (gen : Gen) (rules : List SoundChangeRule) :
    Nat → List (List LexiconEntry) → List LexiconEntry → List Nat →
    Bool × List LexiconEntry × List Nat × List String
  | _, [], ents, evRefs => (true, ents, evRefs, [])
  | k, chunk :: rest, ents, evRefs =>
    let p := evolvePrompt rules chunk
    match gen k p with
    | .error _ => (false, ents, evRefs, [p])
    | .ok t =>
      match safeParseJSON t with
      | .error _ => (false, ents, evRefs, [p])
      | .ok (.arr rs) =>
        match evolveMergeAllH ents evRefs rs with
        | (true, e2, v2) =>
          let (b, e3, v3, log) := evolveChunksH gen rules (k + 1) rest e2 v2
          (b, e3, v3, p :: log)
        | (false, e2, v2) => (false, e2, v2, [p])
      | .ok _ => (false, ents, evRefs, [p])

/-- `evolveWords` at heap level: takes a reference to the caller's word
array and returns the possibly extended heap, the reference the call
returns, and the prompts sent.  The early returns and the `catch` return
the argument array reference itself; success returns the reference of
the freshly allocated evolved array. -/
def evolveWordsHeap (stored env : Option String) (gen : Gen)
    (h : Heap) (argArr : Nat) (rules : List SoundChangeRule) :
    Heap × Nat × List String :=
  let wordRefs := h.arrays.getD argArr []
  match wordRefs, rules with
  | [], _ => (h, argArr, [])
  | _, [] => (h, argArr, [])
  | _ :: _, _ :: _ =>
    if getApiKey stored env = "" then (h, argArr, [])
    else
      let wordsE := wordRefs.map (heapEntry h)
      match evolveChunksH gen rules 0 (chunksOf 10 wordsE) h.entries wordRefs with
      | (true, ents, evRefs, log) =>
        ({ entries := ents, arrays := h.arrays ++ [evRefs] }, h.arrays.length, log)
      | (false, ents, evRefs, log) =>
        ({ entries := ents, arrays := h.arrays ++ [evRefs] }, argArr, log)

/-- The merge of `processCommandAI` at heap level: `lexicon.map` builds a
fresh array whose slots keep the original entry reference when no record
matches and point at a freshly allocated merged object when one does. -/
def cmdMergeH (mods : List Json) : List LexiconEntry → List Nat →
    Bool × List LexiconEntry × List Nat
  | ents, [] => (true, ents, [])
  | ents, r :: rs =>
    let entry := ents.getD r defaultEntry
    match findMod mods entry.id with
    | .error _ => (false, ents, [])
    | .ok none =>
      match cmdMergeH mods ents rs with
      | (b, e2, out) => (b, e2, r :: out)
    | .ok (some m) =>
      match applyMod entry m with
      | .error _ => (false, ents, [])
      | .ok newEnt =>
        match cmdMergeH mods (ents ++ [newEnt]) rs with
        | (b, e2, out) => (b, e2, ents.length :: out)

/-- `processCommandAI` at heap level: returns the heap, the reference of
the fresh result array when the operation succeeds, and the prompts
sent. -/
def processCommandAIHeap (stored env : Option String) (gen : Gen)
    (h : Heap) (argArr : Nat) (instruction : String) (constraints : ProjectConstraints) :
    Heap × Option Nat × List String :=
  let lexRefs := h.arrays.getD argArr []
  match lexRefs with
  | [] => (h, none, [])
  | _ :: _ =>
    if getApiKey stored env = "" then (h, none, [])
    else
      let p := commandPrompt instruction constraints
      match gen 0 p with
      | .error _ => (h, none, [p])
      | .ok t =>
        match safeParseJSON t with
        | .error _ => (h, none, [p])
        | .ok v =>
          match getProp v "modifications" with
          | .error _ => (h, none, [p])
          | .ok mv =>
            match (if jsTruthy mv then mv else .arr []) with
            | .arr mods =>
              match cmdMergeH mods h.entries lexRefs with
              | (true, ents, out) =>
                ({ entries := ents, arrays := h.arrays ++ [out] }, some h.arrays.length, [p])
              | (false, ents, _) =>
                ({ entries := ents, arrays := h.arrays }, none, [p])
            | _ => (h, none, [p])

/-!
Specification-side definitions.  Each follows the words of the
specification (or of a claim) and is compared with the corresponding
source-derived definition above; none of them is used to define the
embedded operations.
-/

mutual
/-- Values in the image of `JSON.parse`: no `undefined` anywhere and no
duplicate object keys.  Serialization round-trips exactly on these. -/
def jsonWF : Json → Bool
  | .null => true
  | .undef => false
  | .bool _ => true
  | .num _ => true
  | .str _ => true
  | .arr xs => jsonWFList xs
  | .obj kvs => decide ((kvs.map Prod.fst).Nodup) && jsonWFObj kvs

/-- Well-formedness of array elements. -/
def jsonWFList : List Json → Bool
  | [] => true
  | x :: xs => jsonWF x && jsonWFList xs

/-- Well-formedness of member values. -/
def jsonWFObj : List (String × Json) → Bool
  | [] => true
  | (_, v) :: kvs => jsonWF v && jsonWFObj kvs
end

/-- Pure field lookup on values, as the specification speaks of "the
source value" of a field: only objects have fields. -/
def fieldOf (v : Json) (k : String) : Option Json :=
  match v with
  | .obj kvs => kvs.lookup k
  | _ => none

/-- `normalizePhonology` as the specification words it: string fields
keep the source value exactly when it is a string, else default to the
empty string; sequence fields keep the source value exactly when it is
an array, else default to the empty sequence. -/
def specNormalize (v : Json) : PhonologyConfig :=
  { name := match fieldOf v "name" with | some (.str s) => s | _ => "",
    description := match fieldOf v "description" with | some (.str s) => s | _ => "",
    consonants := match fieldOf v "consonants" with | some (.arr xs) => xs | _ => [],
    vowels := match fieldOf v "vowels" with | some (.arr xs) => xs | _ => [],
    syllableStructure := match fieldOf v "syllableStructure" with | some (.str s) => s | _ => "",
    bannedCombinations := match fieldOf v "bannedCombinations" with | some (.arr xs) => xs | _ => [] }

/-- "The text contains at least one opening brace and at least one
closing brace with the closing brace positioned after the opening
brace", phrased directly as the existence of such a pair. -/
def hasBracePair : List Char → Bool
  | [] => false
  | c :: rest => (c = lcurl && rest.contains rcurl) || hasBracePair rest

/-- Candidate selection as the specification's priority order reads
after amendment: each later heuristic applies exactly when the earlier
one does not syntactically match (a fenced block matches only when its
captured contents are non-empty). -/
def specAmendedSelect (cs : List Char) : List Char :=
  match fenceMatch cs with
  | some (c :: inner) => c :: inner
  | _ =>
    if hasBracePair cs then
      substringCh cs ((firstIdxOf lcurl cs).getD 0) (((lastIdxOf rcurl cs).getD 0) + 1)
    else
      match aggrMatch cs with
      | some m => m
      | none => trimCh cs

/-- Extraction built from the amended selection. -/
def specAmendedExtract (text : String) : Except String Json :=
  match cleanCandidate (specAmendedSelect text.data) with
  | .error e => .error e
  | .ok cs =>
    match Json.parseText (String.mk cs) with
    | some v => .ok v
    | none => .error syntaxErrMsg

/-- Clean one candidate and test whether it parses, as claim C1's
"yields a successfully parseable result" for a single heuristic step. -/
def specTryCandidate (cand : List Char) : Option Json :=
  match cleanCandidate cand with
  | .ok cs => Json.parseText (String.mk cs)
  | .error _ => none

/-- The brace-pair candidate substring, when the condition holds. -/
def braceCand (cs : List Char) : Option (List Char) :=
  match firstIdxOf lcurl cs, lastIdxOf rcurl cs with
  | some f, some l => if f < l then some (substringCh cs f (l + 1)) else none
  | _, _ => none

/-- Extraction as claim C1 states it: the four heuristics in priority
order, each attempted only if the previous step does not yield a
successfully parseable result. -/
def specBacktrackExtract (text : String) : Option Json :=
  ((fenceMatch text.data).bind specTryCandidate).orElse fun _ =>
  ((braceCand text.data).bind specTryCandidate).orElse fun _ =>
  ((aggrMatch text.data).bind specTryCandidate).orElse fun _ =>
  specTryCandidate (trimCh text.data)

/-- The first result record whose `originalWord` field is the given
word text. -/
def specRecordFor (records : List Json) (w : String) : Option Json :=
  records.find? (fun r =>
    match fieldOf r "originalWord" with
    | some (.str s) => s = w
    | _ => false)

/-- The evolution merge as claim C5 states it: each caller entry is
matched against the records by its original word text; unmatched caller
entries pass through unchanged, and records matching no caller entry
are dropped. -/
def specEvolveByOriginal (words : List LexiconEntry) (records : List Json) :
    List LexiconEntry :=
  words.map (fun e =>
    match specRecordFor records e.word with
    | some r =>
      match fieldOf r "newWord", fieldOf r "newIPA", fieldOf r "changeLog" with
      | some (.str w), some (.str ipa), some cl =>
        { e with word := w, ipa := ipa,
                 etymology := some ((e.etymology.getD "") ++ "; " ++ jsCoerceStr cl) }
      | _, _, _ => e
    | none => e)

/-!
Concrete fixtures used by the closed counterexample and witness
theorems.
-/

/-- A non-empty stored API key used by concrete runs. -/
def someKey : Option String := some "KEY1234"

/-- An unconstrained `ProjectConstraints` value. -/
def freeConstraints : ProjectConstraints :=
  { bannedSequences := [], allowedGraphemes := "", phonotacticStructure := "" }

/-- An identity-echo adapter answering each repair chunk with the bare
serialized JSON array of the chunk's records. -/
def bareEchoGen (entries : List LexiconEntry) : Gen := fun k _ =>
  .ok (Json.serialize (.arr (((chunksOf 15 entries).getD k []).map entryJson)))

/-- An identity-echo adapter answering each repair chunk with the
serialized JSON array of the chunk's records inside a markdown fence. -/
def fencedEchoGen (entries : List LexiconEntry) : Gen := fun k _ =>
  .ok ("```json\n" ++ Json.serialize (.arr (((chunksOf 15 entries).getD k []).map entryJson)) ++ "\n```")

/-- Thirty-seven distinct lexicon entries. -/
def entries37 : List LexiconEntry :=
  (List.range 37).map (fun i => { id := toString i, word := "w" ++ toString i, ipa := "" })

/-- Claim C1's counterexample input: a fence whose contents do not
parse, followed by prose containing a parseable brace pair. -/
def c1Input : String := "```json\nnot json\n``` \x7b\"a\":1\x7d"

/-- Two caller words for the evolution-merge counterexample. -/
def chainWords2 : List LexiconEntry :=
  [{ id := "1", word := "a", ipa := "" }, { id := "2", word := "b", ipa := "" }]

/-- A single sound-change rule. -/
def oneRule : List SoundChangeRule := [{ rule := "a > b > c" }]

/-- A fenced response carrying two records: word "a" becomes "b", and
word "b" becomes "c". -/
def chainResp : String :=
  "```json\n[\x7b\"originalWord\":\"a\",\"newWord\":\"b\",\"newIPA\":\"b\",\"changeLog\":\"x\"\x7d,\x7b\"originalWord\":\"b\",\"newWord\":\"c\",\"newIPA\":\"c\",\"changeLog\":\"y\"\x7d]\n```"

/-- A one-entry, one-array heap for the heap-level counterexample. -/
def heap1 : Heap :=
  { entries := [{ id := "1", word := "a", ipa := "" }], arrays := [[0]] }

/-- An adapter whose every call is a rejected transport promise. -/
def errGen : Gen := fun _ _ => .error "boom"

/-- An adapter answering every call with the chained evolution response. -/
def chainGen : Gen := fun _ _ => .ok chainResp

/-- The two chained evolution result records carried by `chainResp`. -/
def chainRecords : List Json :=
  [.obj [("originalWord", .str "a"), ("newWord", .str "b"),
         ("newIPA", .str "b"), ("changeLog", .str "x")],
   .obj [("originalWord", .str "b"), ("newWord", .str "c"),
         ("newIPA", .str "c"), ("changeLog", .str "y")]]

/-- The concrete command lexicon of the specification's example. -/
def cmdLex : List LexiconEntry :=
  [{ id := "a", word := "foo", ipa := "" }, { id := "b", word := "bar", ipa := "" }]

/-- The concrete command response of the specification's example. -/
def cmdResp : String := "\x7b\"modifications\":[\x7b\"id\":\"a\",\"word\":\"FOO\"\x7d]\x7d"

/-- An adapter answering every call with `cmdResp`. -/
def cmdGen : Gen := fun _ _ => .ok cmdResp

/-- An adapter answering every call with an empty JSON array. -/
def emptyArrGen : Gen := fun _ _ => .ok "[]"

/-- The default phonology configuration as a JSON object. -/
def defaultPhonologyJson : Json :=
  .obj [("name", .str "Default Phonology"),
        ("description", .str "Failed to generate phonology. Please check your API key and prompt."),
        ("consonants", .arr []), ("vowels", .arr []),
        ("syllableStructure", .str "CV"), ("bannedCombinations", .arr [])]

end ConlangStudio
namespace ConlangStudio

theorem char_toNat_ofNat (n : Nat) (h : n < 55296) : (Char.ofNat n).toNat = n := by
  have hv : n.isValidChar := Or.inl h
  simp only [Char.ofNat, dif_pos hv, Char.ofNatAux, Char.toNat]
  simp [UInt32.toNat, BitVec.toNat_ofNatLt]

theorem isJsonWs_false_of_ge (c : Char) (h : 33 ≤ c.toNat) : isJsonWs c = false := by
  simp only [isJsonWs, Bool.or_eq_false_iff, decide_eq_false_iff_not]
  refine ⟨⟨⟨?_, ?_⟩, ?_⟩, ?_⟩ <;> rintro rfl <;> revert h <;> decide

theorem skipWs_cons_nonws {c : Char} (h : isJsonWs c = false) (cs : List Char) :
    skipWs (c :: cs) = c :: cs := by
  simp [skipWs, List.dropWhile_cons, h]

theorem isDigitCh_toNat {c : Char} (h : isDigitCh c = true) : 48 ≤ c.toNat ∧ c.toNat ≤ 57 := by
  simp only [isDigitCh, Bool.and_eq_true, decide_eq_true_eq] at h
  exact h

theorem isJsonWs_false_of_digit {c : Char} (h : isDigitCh c = true) : isJsonWs c = false :=
  isJsonWs_false_of_ge c (by have := (isDigitCh_toNat h).1; omega)

theorem natDigits_all_digit (n : Nat) : ∀ c ∈ natDigits n, isDigitCh c = true := by
  intro c hc
  unfold natDigits at hc
  split at hc
  · simp at hc
    subst hc
    decide
  · simp only [List.mem_reverse, List.mem_map] at hc
    obtain ⟨d, hd, rfl⟩ := hc
    have hd10 : d < 10 := Nat.digits_lt_base (by norm_num) hd
    have ht : (Char.ofNat (48 + d)).toNat = 48 + d := char_toNat_ofNat _ (by omega)
    simp only [isDigitCh, Bool.and_eq_true, decide_eq_true_eq]
    rw [ht]
    omega

theorem natDigits_ne_nil (n : Nat) : natDigits n ≠ [] := by
  unfold natDigits
  split
  · simp
  · simp only [ne_eq, List.reverse_eq_nil_iff, List.map_eq_nil_iff]
    rename_i h
    exact Nat.digits_ne_nil_iff_ne_zero.mpr h

theorem foldl_digits_rev (l : List Nat) (h : ∀ d ∈ l, d < 10) :
    natFromDigits ((l.map (fun d => Char.ofNat (48 + d))).reverse) = Nat.ofDigits 10 l := by
  induction l with
  | nil => simp [natFromDigits]
  | cons d l ih =>
    have hd : d < 10 := h d (by simp)
    have ih' := ih (fun x hx => h x (by simp [hx]))
    simp only [List.map_cons, List.reverse_cons]
    unfold natFromDigits at ih' ⊢
    rw [List.foldl_append]
    rw [ih']
    simp only [List.foldl_cons, List.foldl_nil]
    rw [char_toNat_ofNat _ (by omega)]
    rw [Nat.ofDigits_cons]
    omega

theorem natFromDigits_natDigits (n : Nat) : natFromDigits (natDigits n) = n := by
  unfold natDigits
  split
  · rename_i h
    subst h
    decide
  · rw [foldl_digits_rev _ (fun d hd => Nat.digits_lt_base (by norm_num) hd)]
    exact Nat.ofDigits_digits 10 n

theorem takeWhile_all_append (p : Char → Bool) (xs rest : List Char)
    (hxs : ∀ c ∈ xs, p c = true) (hrest : ∀ c, rest.head? = some c → p c = false) :
    (xs ++ rest).takeWhile p = xs ∧ (xs ++ rest).dropWhile p = rest := by
  induction xs with
  | nil =>
    cases rest with
    | nil => simp
    | cons c cs =>
      have hpc := hrest c rfl
      simp [List.takeWhile_cons, List.dropWhile_cons, hpc]
  | cons c cs ih =>
    have hpc : p c = true := hxs c (by simp)
    have ih' := ih (fun x hx => hxs x (by simp [hx]))
    simp only [List.cons_append, List.takeWhile_cons, List.dropWhile_cons, hpc, if_pos]
    simp [ih'.1, ih'.2]

theorem parseNat_natDigits (n : Nat) (rest : List Char)
    (hrest : ∀ c, rest.head? = some c → isDigitCh c = false) :
    parseNat (natDigits n ++ rest) = some (n, rest) := by
  have h := takeWhile_all_append isDigitCh (natDigits n) rest (natDigits_all_digit n) hrest
  unfold parseNat
  rw [h.1, h.2]
  have hne : natDigits n ≠ [] := natDigits_ne_nil n
  simp [hne, natFromDigits_natDigits]


theorem hexVal_hexDigit (k : Nat) (h : k < 16) : hexVal (hexDigit k) = some k := by
  unfold hexDigit hexVal
  by_cases hk : k < 10
  · rw [if_pos hk]
    have ht : (Char.ofNat (48 + k)).toNat = 48 + k := char_toNat_ofNat _ (by omega)
    rw [if_pos (by rw [ht]; omega)]
    simp [ht]
  · rw [if_neg hk]
    have ht : (Char.ofNat (87 + k)).toNat = 87 + k := char_toNat_ofNat _ (by omega)
    rw [if_neg (by rw [ht]; omega), if_pos (by rw [ht]; omega)]
    simp [ht]

theorem parseStrAux_cons_ord (c : Char) (tl : List Char)
    (h1 : c ≠ '"') (h2 : c ≠ '\\') (h6 : ¬ c.toNat < 32) :
    parseStrAux (c :: tl) =
      match parseStrAux tl with
      | some (s, r) => some (c :: s, r)
      | none => none := by
  rw [parseStrAux.eq_def]
  split
  · rename_i heq
    simp at heq
  · rename_i heq
    exfalso
    injection heq with he _
    exact h1 he
  · rename_i heq
    exfalso
    injection heq with he _
    exact h2 he
  · rename_i heq
    exfalso
    injection heq with he _
    exact h2 he
  · rename_i c2 tl2 heq
    injection heq with he htail
    subst he
    subst htail
    rw [if_neg h6]

theorem parseStrAux_ser (s : List Char) (rest : List Char) :
    parseStrAux (s.flatMap escChar ++ '"' :: rest) = some (s, rest) := by
  induction s with
  | nil => simp [parseStrAux]
  | cons c cs ih =>
    by_cases h1 : c = '"'
    · subst h1
      simp only [List.flatMap_cons, escChar, if_pos rfl, List.cons_append, List.append_assoc]
      simp [parseStrAux, escUn, ih]
    · by_cases h2 : c = '\\'
      · subst h2
        simp only [List.flatMap_cons, escChar]
        norm_num
        simp [parseStrAux, escUn, ih]
      · by_cases h3 : c = '\n'
        · subst h3
          simp only [List.flatMap_cons, escChar]
          norm_num
          simp [parseStrAux, escUn, ih]
        · by_cases h4 : c = '\t'
          · subst h4
            simp only [List.flatMap_cons, escChar]
            norm_num
            simp [parseStrAux, escUn, ih]
          · by_cases h5 : c = '\r'
            · subst h5
              simp only [List.flatMap_cons, escChar]
              norm_num
              simp [parseStrAux, escUn, ih]
            · by_cases h6 : c.toNat < 32
              · simp only [List.flatMap_cons, escChar, if_neg h1, if_neg h2, if_neg h3,
                  if_neg h4, if_neg h5, if_pos h6, List.cons_append, List.append_assoc]
                have hv1 : hexVal '0' = some 0 := by decide
                have hv2 : hexVal (hexDigit (c.toNat / 16)) = some (c.toNat / 16) :=
                  hexVal_hexDigit _ (by omega)
                have hv3 : hexVal (hexDigit (c.toNat % 16)) = some (c.toNat % 16) :=
                  hexVal_hexDigit _ (by omega)
                simp only [parseStrAux, hv1, hv2, hv3, Option.bind_eq_bind, Option.some_bind]
                have hcode : ((0 * 16 + 0) * 16 + c.toNat / 16) * 16 + c.toNat % 16 = c.toNat := by
                  omega
                rw [hcode]
                rw [if_pos (by omega)]
                simp only [List.nil_append]
                rw [ih, Char.ofNat_toNat]
              · simp only [List.flatMap_cons, escChar, if_neg h1, if_neg h2, if_neg h3,
                  if_neg h4, if_neg h5, if_neg h6, List.cons_append, List.singleton_append]
                rw [parseStrAux_cons_ord c _ h1 h2 h6]
                simp only [List.nil_append]
                rw [ih]



theorem jsize_pos (v : Json) : 1 ≤ jsize v := by
  cases v <;> simp [jsize]

theorem serChars_shape (v : Json) :
    ∃ c tl, serChars v = c :: tl ∧ isJsonWs c = false ∧
      c ≠ ']' ∧ c ≠ ',' ∧ c ≠ ':' ∧ c ≠ rcurl := by
  cases v with
  | null => exact ⟨'n', _, rfl, by decide, by decide, by decide, by decide, by decide⟩
  | undef => exact ⟨'n', _, rfl, by decide, by decide, by decide, by decide, by decide⟩
  | bool b =>
    cases b with
    | true => exact ⟨'t', _, rfl, by decide, by decide, by decide, by decide, by decide⟩
    | false => exact ⟨'f', _, rfl, by decide, by decide, by decide, by decide, by decide⟩
  | num n =>
    by_cases hn : n < 0
    · refine ⟨'-', natDigits n.natAbs, ?_, by decide, by decide, by decide, by decide, by decide⟩
      simp [serChars, if_pos hn]
    · obtain ⟨d, ds, hds⟩ : ∃ d ds, natDigits n.natAbs = d :: ds := by
        cases h : natDigits n.natAbs with
        | nil => exact absurd h (natDigits_ne_nil _)
        | cons d ds => exact ⟨d, ds, rfl⟩
      have hd : isDigitCh d = true := natDigits_all_digit _ d (by rw [hds]; simp)
      have hb := isDigitCh_toNat hd
      refine ⟨d, ds, ?_, isJsonWs_false_of_digit hd, ?_, ?_, ?_, ?_⟩
      · simp [serChars, if_neg hn, hds]
      all_goals (rintro rfl; revert hd; decide)
  | str s => exact ⟨'"', _, rfl, by decide, by decide, by decide, by decide, by decide⟩
  | arr xs => exact ⟨'[', _, rfl, by decide, by decide, by decide, by decide, by decide⟩
  | obj kvs =>
    refine ⟨lcurl, _, rfl, ?_, ?_, ?_, ?_, ?_⟩ <;> decide

theorem skipWs_ser (v : Json) (r : List Char) :
    skipWs (serChars v ++ r) = serChars v ++ r := by
  obtain ⟨c, tl, heq, hws, -⟩ := serChars_shape v
  rw [heq, List.cons_append, skipWs_cons_nonws hws]





theorem dropWhileWs_cons {c : Char} (h : isJsonWs c = false) (cs : List Char) :
    List.dropWhile isJsonWs (c :: cs) = c :: cs := by
  simp [List.dropWhile_cons, h]

theorem parseVal_null (f : Nat) (rest : List Char) :
    parseVal (f + 1) ('n' :: 'u' :: 'l' :: 'l' :: rest) = some (.null, rest) := by
  simp only [parseVal, skipWs]
  rw [dropWhileWs_cons (by decide)]
  have e1 : ('n' = lcurl) = False := eq_false (by decide)
  have e2 : ('n' = '[') = False := eq_false (by decide)
  have e3 : ('n' = '"') = False := eq_false (by decide)
  have e4 : ('n' = 't') = False := eq_false (by decide)
  have e5 : ('n' = 'f') = False := eq_false (by decide)
  simp [e1, e2, e3, e4, e5]

theorem parseVal_true (f : Nat) (rest : List Char) :
    parseVal (f + 1) ('t' :: 'r' :: 'u' :: 'e' :: rest) = some (.bool true, rest) := by
  simp only [parseVal, skipWs]
  rw [dropWhileWs_cons (by decide)]
  have e1 : ('t' = lcurl) = False := eq_false (by decide)
  have e2 : ('t' = '[') = False := eq_false (by decide)
  have e3 : ('t' = '"') = False := eq_false (by decide)
  simp [e1, e2, e3]

theorem parseVal_false (f : Nat) (rest : List Char) :
    parseVal (f + 1) ('f' :: 'a' :: 'l' :: 's' :: 'e' :: rest) = some (.bool false, rest) := by
  simp only [parseVal, skipWs]
  rw [dropWhileWs_cons (by decide)]
  have e1 : ('f' = lcurl) = False := eq_false (by decide)
  have e2 : ('f' = '[') = False := eq_false (by decide)
  have e3 : ('f' = '"') = False := eq_false (by decide)
  have e4 : ('f' = 't') = False := eq_false (by decide)
  simp [e1, e2, e3, e4]

theorem parseVal_str (f : Nat) (s : String) (rest : List Char) :
    parseVal (f + 1) (serStr s ++ rest) = some (.str s, rest) := by
  simp only [serStr, List.cons_append, List.append_assoc, List.singleton_append]
  simp only [parseVal, skipWs]
  rw [dropWhileWs_cons (by decide)]
  have e1 : (('"' : Char) = lcurl) = False := eq_false (by decide)
  have e2 : (('"' : Char) = '[') = False := eq_false (by decide)
  simp [e1, e2, parseStrAux_ser]

theorem parseVal_digit (f : Nat) (d : Char) (ds rest : List Char)
    (hd : isDigitCh d = true)
    (hall : ∀ c ∈ d :: ds, isDigitCh c = true)
    (hrest : ∀ c, rest.head? = some c → isDigitCh c = false) :
    parseVal (f + 1) (d :: ds ++ rest) = some (.num (natFromDigits (d :: ds) : Int), rest) := by
  have hws := isJsonWs_false_of_digit hd
  simp only [List.cons_append, parseVal, skipWs]
  rw [dropWhileWs_cons hws]
  have e1 : (d = lcurl) = False := eq_false (by rintro rfl; revert hd; decide)
  have e2 : (d = '[') = False := eq_false (by rintro rfl; revert hd; decide)
  have e3 : (d = '"') = False := eq_false (by rintro rfl; revert hd; decide)
  have e4 : (d = 't') = False := eq_false (by rintro rfl; revert hd; decide)
  have e5 : (d = 'f') = False := eq_false (by rintro rfl; revert hd; decide)
  have e6 : (d = 'n') = False := eq_false (by rintro rfl; revert hd; decide)
  have e7 : (d = '-') = False := eq_false (by rintro rfl; revert hd; decide)
  have h := takeWhile_all_append isDigitCh (d :: ds) rest hall hrest
  simp only [List.cons_append] at h
  simp [e1, e2, e3, e4, e5, e6, e7, hd, parseNat, h.1, h.2]

theorem parseVal_num (f : Nat) (n : Int) (rest : List Char)
    (hrest : ∀ c, rest.head? = some c → isDigitCh c = false) :
    parseVal (f + 1) (serChars (.num n) ++ rest) = some (.num n, rest) := by
  by_cases hn : n < 0
  · simp only [serChars, if_pos hn, List.cons_append, parseVal, skipWs]
    rw [dropWhileWs_cons (by decide)]
    have e1 : (('-' : Char) = lcurl) = False := eq_false (by decide)
    have e2 : (('-' : Char) = '[') = False := eq_false (by decide)
    have e3 : (('-' : Char) = '"') = False := eq_false (by decide)
    have e4 : (('-' : Char) = 't') = False := eq_false (by decide)
    have e5 : (('-' : Char) = 'f') = False := eq_false (by decide)
    have e6 : (('-' : Char) = 'n') = False := eq_false (by decide)
    have h2 : -(n.natAbs : Int) = n := by omega
    simp [e1, e2, e3, e4, e5, e6, parseNat_natDigits _ _ hrest, h2]
    rw [abs_of_neg hn, neg_neg]
  · obtain ⟨d, ds, hds⟩ : ∃ d ds, natDigits n.natAbs = d :: ds := by
      cases h : natDigits n.natAbs with
      | nil => exact absurd h (natDigits_ne_nil _)
      | cons d ds => exact ⟨d, ds, rfl⟩
    have hall : ∀ c ∈ d :: ds, isDigitCh c = true := by
      rw [← hds]; exact natDigits_all_digit _
    have hd : isDigitCh d = true := hall d (by simp)
    have hser : serChars (.num n) = d :: ds := by simp [serChars, if_neg hn, hds]
    rw [hser]
    rw [parseVal_digit f d ds rest hd hall hrest]
    have h1 : natFromDigits (d :: ds) = n.natAbs := by rw [← hds]; exact natFromDigits_natDigits _
    rw [h1]
    have h2 : (n.natAbs : Int) = n := by omega
    rw [h2]

theorem parseVal_lcurl (f : Nat) (tl : List Char) :
    parseVal (f + 1) (lcurl :: tl) =
      match skipWs tl with
      | c2 :: rest2 =>
        if c2 = rcurl then some (.obj [], rest2) else parseMembers f (c2 :: rest2) []
      | [] => none := by
  simp only [parseVal, skipWs]
  rw [dropWhileWs_cons (by decide)]
  simp

theorem parseVal_lbrack (f : Nat) (tl : List Char) :
    parseVal (f + 1) ('[' :: tl) =
      match skipWs tl with
      | c2 :: rest2 =>
        if c2 = ']' then some (.arr [], rest2) else parseElems f (c2 :: rest2) []
      | [] => none := by
  simp only [parseVal, skipWs]
  rw [dropWhileWs_cons (by decide)]
  have e1 : (('[' : Char) = lcurl) = False := eq_false (by decide)
  simp [e1]

theorem serChars_length_pos (v : Json) : 1 ≤ (serChars v).length := by
  obtain ⟨c, tl, heq, -⟩ := serChars_shape v
  rw [heq]
  simp

theorem parseElems_ser
    (B : Nat)
    (IH : ∀ v : Json, jsize v ≤ B → jsonWF v = true →
      ∀ (rest : List Char) (fuel : Nat), (serChars v).length < fuel →
        (∀ c, rest.head? = some c → isDigitCh c = false) →
        parseVal fuel (serChars v ++ rest) = some (v, rest)) :
    ∀ (xs : List Json), xs ≠ [] → (∀ x ∈ xs, jsize x ≤ B) → jsonWFList xs = true →
    ∀ (acc : List Json) (rest : List Char) (fuel : Nat),
      (serCharsList xs).length + 1 < fuel →
      (∀ c, rest.head? = some c → isDigitCh c = false) →
      parseElems fuel (serCharsList xs ++ ']' :: rest) acc = some (.arr (acc ++ xs), rest) := by
  intro xs
  induction xs with
  | nil => intro h; exact absurd rfl h
  | cons x xs ihxs =>
    intro _ hsz hwf acc rest fuel hfuel hrest
    obtain ⟨f, rfl⟩ : ∃ f, fuel = f + 1 := ⟨fuel - 1, by omega⟩
    have hwx : jsonWF x = true := by
      simp only [jsonWFList, Bool.and_eq_true] at hwf
      exact hwf.1
    have hsx : jsize x ≤ B := hsz x (by simp)
    cases xs with
    | nil =>
      simp only [serCharsList]
      simp only [serCharsList] at hfuel
      rw [parseElems]
      rw [IH x hsx hwx (']' :: rest) f (by omega) (by intro c hc; injection hc with hc; subst hc; decide)]
      norm_num [skipWs_cons_nonws (show isJsonWs ']' = false from by decide)]
      exact fun h => absurd h (by decide)
    | cons y ys =>
      simp only [serCharsList, List.append_assoc, List.cons_append]
      have hlen : (serCharsList (y :: ys)).length + 1 < f := by
        have hx1 := serChars_length_pos x
        simp only [serCharsList, List.length_append, List.length_cons] at hfuel ⊢
        omega
      have hfx : (serChars x).length < f := by
        simp only [serCharsList, List.length_append, List.length_cons] at hfuel
        omega
      rw [parseElems]
      rw [IH x hsx hwx (',' :: (serCharsList (y :: ys) ++ ']' :: rest)) f hfx
        (by intro c hc; injection hc with hc; subst hc; decide)]
      norm_num [skipWs_cons_nonws (show isJsonWs ',' = false from by decide)]
      have := ihxs (by simp) (fun z hz => hsz z (by simp [hz]))
        (by simp only [jsonWFList, Bool.and_eq_true] at hwf
            simp only [jsonWFList, Bool.and_eq_true]
            exact hwf.2)
        (acc ++ [x]) rest f hlen hrest
      rw [this]
      simp

theorem stringMk_data (s : String) : String.mk s.data = s := by
  cases s
  rfl

theorem setKey_fresh (acc : List (String × Json)) (k : String) (v : Json)
    (h : k ∉ acc.map Prod.fst) : setKey acc k v = acc ++ [(k, v)] := by
  induction acc with
  | nil => rfl
  | cons p acc ih =>
    obtain ⟨k0, v0⟩ := p
    simp only [List.map_cons, List.mem_cons] at h
    push_neg at h
    simp only [setKey, if_neg (Ne.symm h.1), List.cons_append]
    rw [ih h.2]

theorem parseMembers_ser
    (B : Nat)
    (IH : ∀ v : Json, jsize v ≤ B → jsonWF v = true →
      ∀ (rest : List Char) (fuel : Nat), (serChars v).length < fuel →
        (∀ c, rest.head? = some c → isDigitCh c = false) →
        parseVal fuel (serChars v ++ rest) = some (v, rest)) :
    ∀ (kvs : List (String × Json)), kvs ≠ [] → (∀ p ∈ kvs, jsize p.2 ≤ B) →
      jsonWFObj kvs = true →
    ∀ (acc : List (String × Json)) (rest : List Char) (fuel : Nat),
      (serCharsObj kvs).length + 1 < fuel →
      ((acc ++ kvs).map Prod.fst).Nodup →
      (∀ c, rest.head? = some c → isDigitCh c = false) →
      parseMembers fuel (serCharsObj kvs ++ rcurl :: rest) acc = some (.obj (acc ++ kvs), rest) := by
  intro kvs
  induction kvs with
  | nil => intro h; exact absurd rfl h
  | cons p kvs ihkvs =>
    obtain ⟨k, v⟩ := p
    intro _ hsz hwf acc rest fuel hfuel hnd hrest
    obtain ⟨f, rfl⟩ : ∃ f, fuel = f + 1 := ⟨fuel - 1, by omega⟩
    have hwv : jsonWF v = true := by
      simp only [jsonWFObj, Bool.and_eq_true] at hwf
      exact hwf.1
    have hsv : jsize v ≤ B := hsz (k, v) (by simp)
    have hkfresh : k ∉ acc.map Prod.fst := by
      simp only [List.map_append, List.map_cons] at hnd
      have hd := (List.nodup_append.mp hnd).2.2
      intro hmem
      exact hd hmem (by simp)
    cases kvs with
    | nil =>
      have hfv : (serChars v).length < f := by
        simp only [serCharsObj, serStr, List.length_append, List.length_cons,
          List.length_nil] at hfuel
        omega
      simp only [serCharsObj, serStr, List.cons_append, List.append_assoc,
        List.singleton_append, List.nil_append]
      rw [parseMembers]
      norm_num [skipWs_cons_nonws (show isJsonWs '"' = false from by decide)]
      rw [parseStrAux_ser]
      norm_num [skipWs_cons_nonws (show isJsonWs ':' = false from by decide)]
      rw [IH v hsv hwv (rcurl :: rest) f hfv
        (by intro c hc; injection hc with hc; subst hc; decide)]
      norm_num [skipWs_cons_nonws (show isJsonWs rcurl = false from by decide)]
      rw [stringMk_data, setKey_fresh acc k v hkfresh]
      rw [if_neg (show ¬ rcurl = ',' from by decide)]
    | cons m kvs2 =>
      simp only [serCharsObj, serStr, List.cons_append, List.append_assoc,
        List.singleton_append, List.nil_append]
      have hlen2 : (serCharsObj (m :: kvs2)).length + 1 < f := by
        simp only [serCharsObj, serStr, List.length_append, List.length_cons] at hfuel ⊢
        cases kvs2 <;> (simp only [serCharsObj, serStr, List.length_append, List.length_cons] at hfuel ⊢; omega)
      have hfv : (serChars v).length < f := by
        simp only [serCharsObj, serStr, List.length_append, List.length_cons] at hfuel
        cases kvs2 <;> (simp only [serCharsObj, serStr, List.length_append, List.length_cons] at hfuel; omega)
      rw [parseMembers]
      norm_num [skipWs_cons_nonws (show isJsonWs '"' = false from by decide)]
      rw [parseStrAux_ser]
      norm_num [skipWs_cons_nonws (show isJsonWs ':' = false from by decide)]
      rw [IH v hsv hwv (',' :: (serCharsObj (m :: kvs2) ++ rcurl :: rest)) f hfv
        (by intro c hc; injection hc with hc; subst hc; decide)]
      norm_num [skipWs_cons_nonws (show isJsonWs ',' = false from by decide)]
      rw [stringMk_data, setKey_fresh acc k v hkfresh]
      have hnd2 : (((acc ++ [(k, v)]) ++ m :: kvs2).map Prod.fst).Nodup := by
        have : (acc ++ [(k, v)]) ++ m :: kvs2 = acc ++ (k, v) :: m :: kvs2 := by simp
        rw [this]
        exact hnd
      have := ihkvs (by simp) (fun z hz => hsz z (by simp [hz]))
        (by simp only [jsonWFObj, Bool.and_eq_true] at hwf
            simp only [jsonWFObj, Bool.and_eq_true]
            exact hwf.2)
        (acc ++ [(k, v)]) rest f hlen2 hnd2 hrest
      rw [this]
      simp

theorem jsize_le_list {x : Json} {xs : List Json} (h : x ∈ xs) :
    jsize x ≤ jsize.jsizeList xs := by
  induction xs with
  | nil => simp at h
  | cons y ys ih =>
    rcases List.mem_cons.mp h with rfl | hmem
    · simp [jsize.jsizeList]
      omega
    · have := ih hmem
      simp [jsize.jsizeList]
      omega

theorem jsize_le_obj {k : String} {v : Json} {kvs : List (String × Json)}
    (h : (k, v) ∈ kvs) : jsize v ≤ jsize.jsizeObj kvs := by
  induction kvs with
  | nil => simp at h
  | cons p ps ih =>
    obtain ⟨k0, v0⟩ := p
    rcases List.mem_cons.mp h with heq | hmem
    · injection heq with h1 h2
      subst h2
      simp [jsize.jsizeObj]
      omega
    · have := ih hmem
      simp [jsize.jsizeObj]
      omega

theorem serCharsList_shape (x : Json) (xs : List Json) :
    ∃ c tl, serCharsList (x :: xs) = c :: tl ∧ isJsonWs c = false ∧ c ≠ ']' := by
  obtain ⟨c, tl, heq, hws, hne, -⟩ := serChars_shape x
  cases xs with
  | nil => exact ⟨c, tl, by simp [serCharsList, heq], hws, hne⟩
  | cons y ys =>
    exact ⟨c, tl ++ ',' :: serCharsList (y :: ys),
      by simp [serCharsList, heq], hws, hne⟩

theorem serCharsObj_shape (p : String × Json) (kvs : List (String × Json)) :
    ∃ tl, serCharsObj (p :: kvs) = '"' :: tl := by
  obtain ⟨k, v⟩ := p
  cases kvs with
  | nil =>
    exact ⟨k.data.flatMap escChar ++ '"' :: ':' :: serChars v,
      by simp [serCharsObj, serStr]⟩
  | cons m ms =>
    exact ⟨k.data.flatMap escChar ++ '"' :: ':' :: (serChars v ++ ',' :: serCharsObj (m :: ms)),
      by simp [serCharsObj, serStr]⟩

theorem parseVal_ser (B : Nat) : ∀ v : Json, jsize v ≤ B → jsonWF v = true →
    ∀ (rest : List Char) (fuel : Nat), (serChars v).length < fuel →
      (∀ c, rest.head? = some c → isDigitCh c = false) →
      parseVal fuel (serChars v ++ rest) = some (v, rest) := by
  induction B with
  | zero =>
    intro v hv
    exact absurd hv (by have := jsize_pos v; omega)
  | succ B ih =>
    intro v hsize hwf rest fuel hfuel hrest
    obtain ⟨f, rfl⟩ : ∃ f, fuel = f + 1 := ⟨fuel - 1, by have := serChars_length_pos v; omega⟩
    cases v with
    | undef => simp [jsonWF] at hwf
    | null =>
      simp only [serChars, List.cons_append, List.nil_append]
      exact parseVal_null f rest
    | bool b =>
      cases b with
      | true =>
        simp only [serChars, List.cons_append, List.nil_append]
        exact parseVal_true f rest
      | false =>
        simp only [serChars, List.cons_append, List.nil_append]
        exact parseVal_false f rest
    | num n => exact parseVal_num f n rest hrest
    | str s =>
      show parseVal (f + 1) (serStr s ++ rest) = some (.str s, rest)
      exact parseVal_str f s rest
    | arr xs =>
      have hshell : serChars (.arr xs) ++ rest = '[' :: (serCharsList xs ++ ']' :: rest) := by
        simp [serChars]
      rw [hshell, parseVal_lbrack f _]
      cases xs with
      | nil =>
        simp only [serCharsList, List.nil_append]
        rw [skipWs_cons_nonws (by decide)]
        simp
      | cons x xs2 =>
        obtain ⟨c, tl, heq, hws, hne⟩ := serCharsList_shape x xs2
        have hne' : (c = ']') = False := eq_false hne
        rw [heq, List.cons_append, skipWs_cons_nonws hws]
        norm_num [hne']
        rw [← List.cons_append, ← heq]
        have hszlist : jsize.jsizeList (x :: xs2) ≤ B := by
          simp only [jsize] at hsize
          omega
        have hlen : (serCharsList (x :: xs2)).length + 1 < f := by
          simp only [serChars, List.length_cons, List.length_append] at hfuel
          simp at hfuel
          omega
        have := parseElems_ser B ih (x :: xs2) (by simp)
          (fun z hz => le_trans (jsize_le_list hz) hszlist)
          (by simpa [jsonWF] using hwf)
          [] rest f hlen hrest
        rw [this]
        simp
    | obj kvs =>
      have hshell : serChars (.obj kvs) ++ rest = lcurl :: (serCharsObj kvs ++ rcurl :: rest) := by
        simp [serChars]
      rw [hshell, parseVal_lcurl f _]
      cases kvs with
      | nil =>
        simp only [serCharsObj, List.nil_append]
        rw [skipWs_cons_nonws (by decide)]
        simp
      | cons p kvs2 =>
        obtain ⟨tl, heq⟩ := serCharsObj_shape p kvs2
        have hne' : (('"' : Char) = rcurl) = False := eq_false (by decide)
        rw [heq, List.cons_append, skipWs_cons_nonws (by decide)]
        norm_num [hne']
        rw [← List.cons_append, ← heq]
        have hwf2 : (decide (((p :: kvs2).map Prod.fst).Nodup) && jsonWFObj (p :: kvs2)) = true := by
          simpa [jsonWF] using hwf
        simp only [Bool.and_eq_true, decide_eq_true_eq] at hwf2
        have hszobj : jsize.jsizeObj (p :: kvs2) ≤ B := by
          simp only [jsize] at hsize
          omega
        have hlen : (serCharsObj (p :: kvs2)).length + 1 < f := by
          simp only [serChars, List.length_cons, List.length_append] at hfuel
          simp at hfuel
          omega
        have := parseMembers_ser B ih (p :: kvs2) (by simp)
          (fun z hz => by
            obtain ⟨zk, zv⟩ := z
            exact le_trans (jsize_le_obj hz) hszobj)
          hwf2.2
          [] rest f hlen (by simpa using hwf2.1) hrest
        rw [this]
        simp

theorem parseText_serialize (v : Json) (hwf : jsonWF v = true) :
    Json.parseText (Json.serialize v) = some v := by
  unfold Json.parseText Json.serialize
  have h := parseVal_ser (jsize v) v le_rfl hwf [] ((serChars v).length + 1)
    (by omega) (by intro c hc; simp at hc)
  simp only [List.append_nil] at h
  show (match parseVal ((serChars v).length + 1) (serChars v) with
    | some (w, rest) => if skipWs rest = [] then some w else none
    | none => none) = some v
  rw [h]
  simp [skipWs]

theorem hexDigit_ge (k : Nat) (hk : k < 16) : 48 ≤ (hexDigit k).toNat := by
  unfold hexDigit
  by_cases h : k < 10
  · rw [if_pos h, char_toNat_ofNat _ (by omega)]
    omega
  · rw [if_neg h, char_toNat_ofNat _ (by omega)]
    omega

theorem escChar_printable (c c' : Char) (h : c' ∈ escChar c) : 32 ≤ c'.toNat := by
  unfold escChar at h
  split at h
  · rcases List.mem_cons.mp h with rfl | h2
    · decide
    · simp at h2
      subst h2
      decide
  · split at h
    · simp only [List.mem_cons, List.mem_singleton] at h
      rcases h with rfl | h2
      · decide
      · simp at h2
        subst h2
        decide
    · split at h
      · simp only [List.mem_cons, List.mem_singleton] at h
        rcases h with rfl | h2
        · decide
        · simp at h2
          subst h2
          decide
      · split at h
        · simp only [List.mem_cons, List.mem_singleton] at h
          rcases h with rfl | h2
          · decide
          · simp at h2
            subst h2
            decide
        · split at h
          · simp only [List.mem_cons, List.mem_singleton] at h
            rcases h with rfl | h2
            · decide
            · simp at h2
              subst h2
              decide
          · split at h
            · rename_i hlt
              simp only [List.mem_cons, List.mem_singleton] at h
              rcases h with rfl | rfl | rfl | rfl | h2
              · decide
              · decide
              · decide
              · decide
              · rcases h2 with rfl | h3
                · calc (32 : Nat) ≤ 48 := by omega
                       _ ≤ _ := hexDigit_ge _ (by omega)
                · simp at h3
                  subst h3
                  calc (32 : Nat) ≤ 48 := by omega
                       _ ≤ _ := hexDigit_ge _ (by omega)
            · rename_i hge
              simp only [List.mem_singleton] at h
              subst h
              omega

theorem serStr_printable (s : String) (c' : Char) (h : c' ∈ serStr s) : 32 ≤ c'.toNat := by
  unfold serStr at h
  rcases List.mem_cons.mp h with rfl | h2
  · decide
  · rcases List.mem_append.mp h2 with h3 | h4
    · obtain ⟨c, -, hc⟩ := List.mem_flatMap.mp h3
      exact escChar_printable c c' hc
    · rw [List.mem_singleton.mp h4]
      decide

theorem serChars_printable (B : Nat) : ∀ v : Json, jsize v ≤ B →
    ∀ c ∈ serChars v, 32 ≤ c.toNat := by
  induction B with
  | zero =>
    intro v hv
    exact absurd hv (by have := jsize_pos v; omega)
  | succ B ih =>
    intro v hsize c hc
    cases v with
    | null => fin_cases hc <;> decide
    | undef => fin_cases hc <;> decide
    | bool b => cases b <;> (fin_cases hc <;> decide)
    | str s => exact serStr_printable s c hc
    | num n =>
      simp only [serChars] at hc
      have hdig : ∀ d ∈ natDigits n.natAbs, 32 ≤ d.toNat := by
        intro d hd
        have := isDigitCh_toNat (natDigits_all_digit _ d hd)
        omega
      split at hc
      · rcases List.mem_cons.mp hc with rfl | h2
        · decide
        · exact hdig _ h2
      · exact hdig _ hc
    | arr xs =>
      have hlist : ∀ x ∈ xs, ∀ d ∈ serChars x, 32 ≤ d.toNat := fun x hx =>
        ih x (by have h1 := jsize_le_list hx; simp only [jsize] at hsize; omega)
      simp only [serChars] at hc
      rcases List.mem_cons.mp hc with rfl | h2
      · decide
      · rcases List.mem_append.mp h2 with h3 | h4
        · clear hsize hc h2
          induction xs with
          | nil => simp [serCharsList] at h3
          | cons x xs2 ihx =>
            cases xs2 with
            | nil => exact hlist x (by simp) c h3
            | cons y ys =>
              simp only [serCharsList] at h3
              rcases List.mem_append.mp h3 with h5 | h6
              · exact hlist x (by simp) c h5
              · rcases List.mem_cons.mp h6 with rfl | h7
                · decide
                · exact ihx (fun z hz => hlist z (by simp at hz ⊢; tauto)) h7
        · rw [List.mem_singleton.mp h4]
          decide
    | obj kvs =>
      have hlist : ∀ p ∈ kvs, ∀ d ∈ serChars p.2, 32 ≤ d.toNat := by
        intro p hp
        obtain ⟨pk, pv⟩ := p
        refine ih pv ?_
        have h1 := jsize_le_obj hp
        simp only [jsize] at hsize
        omega
      simp only [serChars] at hc
      rcases List.mem_cons.mp hc with rfl | h2
      · decide
      · rcases List.mem_append.mp h2 with h3 | h4
        · clear hsize hc h2
          induction kvs with
          | nil => simp [serCharsObj] at h3
          | cons p kvs2 ihp =>
            obtain ⟨k, v⟩ := p
            cases kvs2 with
            | nil =>
              simp only [serCharsObj] at h3
              rcases List.mem_append.mp h3 with h5 | h6
              · exact serStr_printable k c h5
              · rcases List.mem_cons.mp h6 with rfl | h7
                · decide
                · exact hlist (k, v) (by simp) c h7
            | cons m ms =>
              simp only [serCharsObj] at h3
              rcases List.mem_append.mp h3 with h5 | h6
              · rcases List.mem_append.mp h5 with h7 | h8
                · exact serStr_printable k c h7
                · rcases List.mem_cons.mp h8 with rfl | h9
                  · decide
                  · exact hlist (k, v) (by simp) c h9
              · rcases List.mem_cons.mp h6 with rfl | h7
                · decide
                · exact ihp (fun z hz => hlist z (by simp at hz ⊢; tauto)) h7
        · rw [List.mem_singleton.mp h4]
          decide

theorem serChars_no_newline (v : Json) : '\n' ∉ serChars v := by
  intro hmem
  have := serChars_printable (jsize v) v le_rfl '\n' hmem
  revert this
  decide

theorem findSub_none_of_missing (pat cs : List Char) (x : Char)
    (hx : x ∈ pat) (hmem : x ∉ cs) : findSub pat cs = none := by
  induction cs with
  | nil =>
    unfold findSub
    cases pat with
    | nil => simp at hx
    | cons p ps => simp [List.isPrefixOf]
  | cons c rest ih =>
    unfold findSub
    have hpre : pat.isPrefixOf (c :: rest) = false := by
      by_contra hcon
      rw [Bool.not_eq_false] at hcon
      have hsub := (List.isPrefixOf_iff_prefix.mp hcon).subset hx
      exact hmem hsub
    rw [hpre]
    simp only [Bool.false_eq_true, if_false]
    rw [ih (fun hm => hmem (List.mem_cons_of_mem c hm))]
    rfl

theorem fenceMatch_none_of_no_newline (cs : List Char) (h : '\n' ∉ cs) :
    fenceMatch cs = none := by
  unfold fenceMatch
  rw [findSub_none_of_missing fenceOpen cs '\n' (by decide) h]

theorem lastIdxOf_append_last (c : Char) (xs : List Char) :
    lastIdxOf c (xs ++ [c]) = some xs.length := by
  induction xs with
  | nil => simp [lastIdxOf]
  | cons x xs ih =>
    rw [List.cons_append, lastIdxOf, ih]
    simp

theorem trimCh_sandwich (c d : Char) (mid : List Char)
    (hc : isJsonWs c = false) (hd : isJsonWs d = false) :
    trimCh (c :: mid ++ [d]) = c :: mid ++ [d] := by
  unfold trimCh
  rw [List.cons_append]
  have h1 : List.dropWhile isJsonWs (c :: (mid ++ [d])) = c :: (mid ++ [d]) := by
    rw [List.dropWhile_cons, hc]
    simp
  have h2 : (c :: (mid ++ [d])).reverse = d :: (mid.reverse ++ [c]) := by
    simp
  have h3 : List.dropWhile isJsonWs (d :: (mid.reverse ++ [c])) = d :: (mid.reverse ++ [c]) := by
    rw [List.dropWhile_cons, hd]
    simp
  rw [h1, h2, h3]
  simp

theorem substringCh_full (cs : List Char) : substringCh cs 0 cs.length = cs := by
  simp [substringCh]

theorem safeParseJSON_ser_obj (kvs : List (String × Json))
    (hwf : jsonWF (.obj kvs) = true) :
    safeParseJSON (Json.serialize (.obj kvs)) = .ok (.obj kvs) := by
  have hdata : (Json.serialize (.obj kvs)).data = serChars (.obj kvs) := rfl
  have hshape : serChars (.obj kvs) = lcurl :: serCharsObj kvs ++ [rcurl] := rfl
  have hnonl := serChars_no_newline (.obj kvs)
  have hfirst : firstIdxOf lcurl (lcurl :: serCharsObj kvs ++ [rcurl]) = some 0 := by
    rw [List.cons_append, firstIdxOf, if_pos rfl]
  have hlast : lastIdxOf rcurl (lcurl :: serCharsObj kvs ++ [rcurl]) =
      some (lcurl :: serCharsObj kvs).length := by
    exact lastIdxOf_append_last rcurl (lcurl :: serCharsObj kvs)
  have hlen : (lcurl :: serCharsObj kvs).length = (serCharsObj kvs).length + 1 := by simp
  have hsub : substringCh (lcurl :: serCharsObj kvs ++ [rcurl]) 0
      ((lcurl :: serCharsObj kvs).length + 1) = lcurl :: serCharsObj kvs ++ [rcurl] := by
    have hl2 : (lcurl :: serCharsObj kvs ++ [rcurl]).length
        = (lcurl :: serCharsObj kvs).length + 1 := by simp
    rw [← hl2, substringCh_full]
  have hsel : selectCandidate (serChars (.obj kvs)) = serChars (.obj kvs) := by
    unfold selectCandidate
    rw [fenceMatch_none_of_no_newline _ hnonl, hshape, hfirst, hlast]
    simp only [hsub]
    rw [if_pos (by simp)]
  have htrim : trimCh (serChars (.obj kvs)) = serChars (.obj kvs) := by
    rw [hshape]
    exact trimCh_sandwich lcurl rcurl (serCharsObj kvs) (by decide) (by decide)
  have hclean : cleanCandidate (serChars (.obj kvs)) = .ok (serChars (.obj kvs)) := by
    unfold cleanCandidate
    rw [htrim]
    rw [if_pos (Or.inl (by rw [hshape, List.cons_append]; rfl))]
  have hmk : String.mk (serChars (.obj kvs)) = Json.serialize (.obj kvs) := rfl
  unfold safeParseJSON
  rw [hdata, hsel, hclean]
  simp only [hmk, parseText_serialize _ hwf]

theorem findSub_at_boundary (p : Char) (ps xs tl : List Char)
    (hnot : p ∉ xs) (hpre : (p :: ps).isPrefixOf (p :: tl) = true) :
    findSub (p :: ps) (xs ++ p :: tl) = some xs.length := by
  induction xs with
  | nil =>
    rw [List.nil_append]
    unfold findSub
    rw [hpre]
    simp
  | cons x xs ih =>
    have hxp : ¬ x = p := by
      intro h
      exact hnot (by simp [h])
    have hnot2 : p ∉ xs := fun h => hnot (List.mem_cons_of_mem x h)
    rw [List.cons_append]
    unfold findSub
    have hpref : (p :: ps).isPrefixOf (x :: (xs ++ p :: tl)) = false := by
      simp only [List.isPrefixOf, Bool.and_eq_false_iff]
      left
      simp only [beq_eq_false_iff_ne, ne_eq]
      exact fun h => hxp h.symm
    rw [hpref]
    simp only [Bool.false_eq_true, if_false]
    rw [ih hnot2]
    rfl

theorem findSub_prefix0 (pat cs : List Char) (h : pat.isPrefixOf cs = true) :
    findSub pat cs = some 0 := by
  cases cs with
  | nil =>
    unfold findSub
    rw [h]
    simp
  | cons c rest =>
    unfold findSub
    rw [h]
    simp

theorem fenceMatch_boundary (s : List Char) (hnl : '\n' ∉ s) :
    fenceMatch (fenceOpen ++ (s ++ fenceClose)) = some s := by
  unfold fenceMatch
  have h0 : findSub fenceOpen (fenceOpen ++ (s ++ fenceClose)) = some 0 :=
    findSub_prefix0 _ _ (List.isPrefixOf_iff_prefix.mpr (List.prefix_append _ _))
  rw [h0]
  have hdrop : (fenceOpen ++ (s ++ fenceClose)).drop (0 + 8) = s ++ fenceClose := by
    have h8 : fenceOpen.length = 8 := rfl
    rw [Nat.zero_add, ← h8, List.drop_left]
  simp only [hdrop]
  have hfc : fenceClose = '\n' :: "```".data := rfl
  have hclose : findSub fenceClose (s ++ fenceClose) = some s.length := by
    rw [hfc]
    refine findSub_at_boundary '\n' "```".data s "```".data hnl ?_
    exact List.isPrefixOf_iff_prefix.mpr (List.prefix_refl _)
  rw [hclose]
  have htake : (s ++ fenceClose).take s.length = s := List.take_left s fenceClose
  simp only [htake]

theorem safeParseJSON_fenced_arr (xs : List Json) (hwf : jsonWF (.arr xs) = true) :
    safeParseJSON ("```json\n" ++ Json.serialize (.arr xs) ++ "\n```") = .ok (.arr xs) := by
  have hdata : ("```json\n" ++ Json.serialize (.arr xs) ++ "\n```").data
      = fenceOpen ++ (serChars (.arr xs) ++ fenceClose) := by
    rw [String.data_append, String.data_append]
    have h1 : "```json\n".data = fenceOpen := rfl
    have h2 : "\n```".data = fenceClose := rfl
    have h3 : (Json.serialize (.arr xs)).data = serChars (.arr xs) := rfl
    rw [h1, h2, h3, List.append_assoc]
  have hnonl := serChars_no_newline (.arr xs)
  have hshape : serChars (.arr xs) = '[' :: serCharsList xs ++ [']'] := rfl
  have hsel : selectCandidate (("```json\n" ++ Json.serialize (.arr xs) ++ "\n```").data)
      = serChars (.arr xs) := by
    unfold selectCandidate
    rw [hdata, fenceMatch_boundary _ hnonl, hshape]
    rfl
  have htrim : trimCh (serChars (.arr xs)) = serChars (.arr xs) := by
    rw [hshape]
    exact trimCh_sandwich '[' ']' (serCharsList xs) (by decide) (by decide)
  have hclean : cleanCandidate (serChars (.arr xs)) = .ok (serChars (.arr xs)) := by
    unfold cleanCandidate
    rw [htrim]
    rw [if_pos (Or.inr (by rw [hshape, List.cons_append]; rfl))]
  have hmk : String.mk (serChars (.arr xs)) = Json.serialize (.arr xs) := rfl
  unfold safeParseJSON
  rw [hsel, hclean]
  simp only [hmk, parseText_serialize _ hwf]

theorem firstIdxOf_none_of_not_mem (c : Char) (cs : List Char) (h : c ∉ cs) :
    firstIdxOf c cs = none := by
  induction cs with
  | nil => rfl
  | cons x rest ih =>
    unfold firstIdxOf
    rw [if_neg (fun he => h (by simp [he]))]
    rw [ih (fun hm => h (List.mem_cons_of_mem x hm))]
    rfl

theorem aggrMatch_none_of_no_lcurl (cs : List Char) (h : lcurl ∉ cs) :
    aggrMatch cs = none := by
  induction cs with
  | nil => rfl
  | cons x rest ih =>
    unfold aggrMatch
    rw [if_neg (fun he => h (by simp [he]))]
    exact ih (fun hm => h (List.mem_cons_of_mem x hm))

theorem head?_mem {α : Type} {l : List α} {a : α} (h : l.head? = some a) : a ∈ l := by
  cases l with
  | nil => simp at h
  | cons x xs =>
    simp only [List.head?_cons, Option.some.injEq] at h
    subst h
    simp

theorem trimCh_subset (cs : List Char) : ∀ x ∈ trimCh cs, x ∈ cs := by
  intro x hx
  unfold trimCh at hx
  rw [List.mem_reverse] at hx
  have h1 := (List.dropWhile_sublist (l := (cs.dropWhile isJsonWs).reverse) (p := isJsonWs)).subset hx
  rw [List.mem_reverse] at h1
  exact (List.dropWhile_sublist (l := cs) (p := isJsonWs)).subset h1

theorem cleanCandidate_no_brackets (cand : List Char)
    (hlc : lcurl ∉ cand) (hlb : '[' ∉ cand) :
    cleanCandidate cand = .error noStartMsg := by
  have htl : ∀ x ∈ trimCh cand, x ∈ cand := trimCh_subset cand
  unfold cleanCandidate
  rw [if_neg ?hcond]
  case hcond =>
    rintro (h | h)
    · exact hlc (htl _ (head?_mem h))
    · exact hlb (htl _ (head?_mem h))
  rw [firstIdxOf_none_of_not_mem '[' _ (fun hm => hlb (htl _ hm)),
    firstIdxOf_none_of_not_mem lcurl _ (fun hm => hlc (htl _ hm))]

theorem safeParseJSON_no_json (text : String)
    (hlc : lcurl ∉ text.data) (hlb : '[' ∉ text.data)
    (hfence : fenceMatch text.data = none) :
    safeParseJSON text = .error noStartMsg := by
  have hsel : selectCandidate text.data = trimCh text.data := by
    unfold selectCandidate
    rw [hfence, firstIdxOf_none_of_not_mem lcurl _ hlc,
      aggrMatch_none_of_no_lcurl _ hlc]
  have htsub := trimCh_subset text.data
  have hclean : cleanCandidate (trimCh text.data) = .error noStartMsg :=
    cleanCandidate_no_brackets _ (fun hm => hlc (htsub _ hm)) (fun hm => hlb (htsub _ hm))
  unfold safeParseJSON
  rw [hsel, hclean]

theorem firstIdxOf_drop_head (c : Char) (cs : List Char) :
    ∀ i, firstIdxOf c cs = some i → (cs.drop i).head? = some c := by
  induction cs with
  | nil => intro i h; exact Option.noConfusion h
  | cons x rest ih =>
    intro i h
    unfold firstIdxOf at h
    by_cases hx : x = c
    · rw [if_pos hx] at h
      injection h with h
      subst h
      simp [hx]
    · rw [if_neg hx] at h
      cases hfi : firstIdxOf c rest with
      | none => rw [hfi] at h; exact Option.noConfusion h
      | some j =>
        rw [hfi] at h
        simp only [Option.map_some'] at h
        injection h with h
        subst h
        simpa using ih j hfi

theorem cleanCandidate_ok_head (cand t : List Char) (h : cleanCandidate cand = .ok t) :
    t.head? = some lcurl ∨ t.head? = some '[' := by
  unfold cleanCandidate at h
  replace h : (if (trimCh cand).head? = some lcurl ∨ (trimCh cand).head? = some '[' then
      Except.ok (trimCh cand)
    else
      match firstIdxOf '[' (trimCh cand), firstIdxOf lcurl (trimCh cand) with
      | some bi, some ci =>
        if bi < ci then Except.ok ((trimCh cand).drop bi) else Except.ok ((trimCh cand).drop ci)
      | some bi, none => Except.ok ((trimCh cand).drop bi)
      | none, some ci => Except.ok ((trimCh cand).drop ci)
      | none, none => Except.error noStartMsg) = Except.ok t := h
  split at h
  · injection h with h
    subst h
    assumption
  · rename_i hcond
    split at h
    · rename_i bi ci hbi hci
      split at h
      · injection h with h
        subst h
        right
        exact firstIdxOf_drop_head _ _ _ hbi
      · injection h with h
        subst h
        left
        exact firstIdxOf_drop_head _ _ _ hci
    · rename_i bi hbi _
      injection h with h
      subst h
      right
      exact firstIdxOf_drop_head _ _ _ hbi
    · rename_i ci _ hci
      injection h with h
      subst h
      left
      exact firstIdxOf_drop_head _ _ _ hci
    · exact absurd h (by simp)

theorem parseMembers_shape : ∀ (fuel : Nat) (cs : List Char) (acc : List (String × Json))
    (v : Json) (r : List Char), parseMembers fuel cs acc = some (v, r) → ∃ kvs, v = .obj kvs := by
  intro fuel
  induction fuel with
  | zero => intro cs acc v r h; exact Option.noConfusion h
  | succ f ih =>
    intro cs acc v r h
    unfold parseMembers at h
    split at h
    · split at h
      · exact Option.noConfusion h
      · split at h
        · split at h
          · exact Option.noConfusion h
          · split at h
            · split at h
              · exact ih _ _ _ _ h
              · split at h
                · injection h with h1
                  injection h1 with h2 h3
                  exact ⟨_, h2.symm⟩
                · exact Option.noConfusion h
            · exact Option.noConfusion h
        · exact Option.noConfusion h
    · exact Option.noConfusion h

theorem parseElems_shape : ∀ (fuel : Nat) (cs : List Char) (acc : List Json)
    (v : Json) (r : List Char), parseElems fuel cs acc = some (v, r) → ∃ xs, v = .arr xs := by
  intro fuel
  induction fuel with
  | zero => intro cs acc v r h; exact Option.noConfusion h
  | succ f ih =>
    intro cs acc v r h
    unfold parseElems at h
    split at h
    · exact Option.noConfusion h
    · split at h
      · split at h
        · exact ih _ _ _ _ h
        · split at h
          · injection h with h1
            injection h1 with h2 h3
            exact ⟨_, h2.symm⟩
          · exact Option.noConfusion h
      · exact Option.noConfusion h

theorem parseVal_shape (fuel : Nat) (cs : List Char) (v : Json) (r : List Char)
    (h : parseVal fuel cs = some (v, r))
    (hhead : (skipWs cs).head? = some lcurl ∨ (skipWs cs).head? = some '[') :
    (∃ kvs, v = .obj kvs) ∨ (∃ xs, v = .arr xs) := by
  cases fuel with
  | zero => exact Option.noConfusion h
  | succ f =>
    unfold parseVal at h
    cases hws : skipWs cs with
    | nil => rw [hws] at h; exact Option.noConfusion h
    | cons c rest =>
      rw [hws] at h
      rw [hws] at hhead
      simp only [List.head?_cons, Option.some.injEq] at hhead
      rcases hhead with rfl | rfl
      · simp only [reduceCtorEq, reduceIte] at h
        split at h
        · split at h
          · injection h with h1
            injection h1 with h2 h3
            exact Or.inl ⟨_, h2.symm⟩
          · exact Or.inl (parseMembers_shape _ _ _ _ _ h)
        · exact Option.noConfusion h
      · have e1 : (('[' : Char) = lcurl) = False := eq_false (by decide)
        simp only [e1, if_false, reduceIte] at h
        split at h
        · split at h
          · injection h with h1
            injection h1 with h2 h3
            exact Or.inr ⟨_, h2.symm⟩
          · exact Or.inr (parseElems_shape _ _ _ _ _ h)
        · exact Option.noConfusion h

theorem safeParseJSON_shape (text : String) (v : Json) (h : safeParseJSON text = .ok v) :
    (∃ kvs, v = .obj kvs) ∨ (∃ xs, v = .arr xs) := by
  unfold safeParseJSON at h
  split at h
  · exact Except.noConfusion h
  · rename_i cs hclean
    split at h
    · rename_i w hparse
      injection h with h1
      subst h1
      have hhead := cleanCandidate_ok_head _ _ hclean
      have hmk : (String.mk cs).data = cs := rfl
      have hskip : (skipWs cs).head? = some lcurl ∨ (skipWs cs).head? = some '[' := by
        cases cs with
        | nil => simp at hhead
        | cons c tl =>
          simp only [List.head?_cons, Option.some.injEq] at hhead
          rcases hhead with rfl | rfl
          · rw [skipWs_cons_nonws (by decide)]
            simp
          · rw [skipWs_cons_nonws (by decide)]
            simp
      unfold Json.parseText at hparse
      rw [hmk] at hparse
      cases hv : parseVal (cs.length + 1) cs with
      | none =>
        rw [hv] at hparse
        exact Option.noConfusion hparse
      | some p =>
        obtain ⟨w2, r2⟩ := p
        simp only [hv] at hparse
        split at hparse
        · injection hparse with h2
          subst h2
          exact parseVal_shape _ _ _ _ hv hskip
        · exact Option.noConfusion hparse
    · exact Except.noConfusion h

theorem strField_eq (o : Option Json) :
    (match (match o with | some v => v | none => Json.undef) with
      | .str s => s | _ => "") =
    (match o with | some (.str s) => s | _ => "") := by
  cases o with
  | none => rfl
  | some v => cases v <;> rfl

theorem arrField_eq (o : Option Json) :
    (match (match o with | some v => v | none => Json.undef) with
      | .arr xs => xs | _ => ([] : List Json)) =
    (match o with | some (.arr xs) => xs | _ => []) := by
  cases o with
  | none => rfl
  | some v => cases v <;> rfl

theorem normalizePhonology_obj (kvs : List (String × Json)) :
    normalizePhonology (.obj kvs) = .ok (specNormalize (.obj kvs)) := by
  have h : normalizePhonology (.obj kvs) = .ok {
      name := match (match kvs.lookup "name" with | some v => v | none => Json.undef) with
        | .str s => s | _ => "",
      description := match (match kvs.lookup "description" with | some v => v | none => Json.undef) with
        | .str s => s | _ => "",
      consonants := match (match kvs.lookup "consonants" with | some v => v | none => Json.undef) with
        | .arr xs => xs | _ => [],
      vowels := match (match kvs.lookup "vowels" with | some v => v | none => Json.undef) with
        | .arr xs => xs | _ => [],
      syllableStructure := match (match kvs.lookup "syllableStructure" with | some v => v | none => Json.undef) with
        | .str s => s | _ => "",
      bannedCombinations := match (match kvs.lookup "bannedCombinations" with | some v => v | none => Json.undef) with
        | .arr xs => xs | _ => [] } := rfl
  rw [h]
  unfold specNormalize fieldOf
  simp only [strField_eq, arrField_eq]

theorem normalizePhonology_arr (xs : List Json) :
    normalizePhonology (.arr xs) = .ok (specNormalize (.arr xs)) := rfl

theorem safeParsePhonologyConfig_ok (text : String) (v : Json)
    (h : safeParseJSON text = .ok v) :
    safeParsePhonologyConfig text = .ok (specNormalize v) := by
  unfold safeParsePhonologyConfig
  rw [h]
  show normalizePhonology v = .ok (specNormalize v)
  rcases safeParseJSON_shape text v h with ⟨kvs, rfl⟩ | ⟨xs, rfl⟩
  · exact normalizePhonology_obj kvs
  · exact normalizePhonology_arr xs

theorem chunksOf_nil_iff {α : Type} (n : Nat) (l : List α) :
    chunksOf (n + 1) l = [] ↔ l = [] := by
  cases l with
  | nil => simp [chunksOf]
  | cons x xs =>
    unfold chunksOf
    simp

theorem chunksOf_flatten {α : Type} (n : Nat) :
    ∀ (N : Nat) (l : List α), l.length ≤ N → (chunksOf (n + 1) l).flatten = l := by
  intro N
  induction N with
  | zero =>
    intro l hl
    have : l = [] := List.eq_nil_of_length_eq_zero (by omega)
    subst this
    simp [chunksOf]
  | succ N ih =>
    intro l hl
    cases l with
    | nil => simp [chunksOf]
    | cons x xs =>
      unfold chunksOf
      simp only [List.flatten_cons]
      rw [ih ((x :: xs).drop (n + 1))
        (by rw [List.length_drop]; simp only [List.length_cons] at hl ⊢; omega)]
      exact List.take_append_drop _ _

theorem chunksOf_le {α : Type} (n : Nat) :
    ∀ (N : Nat) (l : List α), l.length ≤ N → ∀ c ∈ chunksOf (n + 1) l, c.length ≤ n + 1 := by
  intro N
  induction N with
  | zero =>
    intro l hl
    have : l = [] := List.eq_nil_of_length_eq_zero (by omega)
    subst this
    simp [chunksOf]
  | succ N ih =>
    intro l hl c hc
    cases l with
    | nil => simp [chunksOf] at hc
    | cons x xs =>
      unfold chunksOf at hc
      rcases List.mem_cons.mp hc with rfl | hmem
      · simp
      · exact ih ((x :: xs).drop (n + 1))
          (by rw [List.length_drop]; simp only [List.length_cons] at hl ⊢; omega) c hmem

theorem chunksOf15_count : ∀ (N : Nat) (l : List LexiconEntry), l.length ≤ N →
    (chunksOf 15 l).length = (l.length + 14) / 15 := by
  intro N
  induction N with
  | zero =>
    intro l hl
    have : l = [] := List.eq_nil_of_length_eq_zero (by omega)
    subst this
    simp [chunksOf]
  | succ N ih =>
    intro l hl
    cases l with
    | nil => simp [chunksOf]
    | cons x xs =>
      show (chunksOf (14 + 1) (x :: xs)).length = ((x :: xs).length + 14) / 15
      unfold chunksOf
      simp only [List.length_cons]
      rw [show (14 : Nat) + 1 = 15 from rfl]
      rw [ih ((x :: xs).drop 15)
        (by rw [List.length_drop]; simp only [List.length_cons] at hl ⊢; omega)]
      simp only [List.length_drop, List.length_cons]
      omega

theorem chunksOf10_count : ∀ (N : Nat) (l : List LexiconEntry), l.length ≤ N →
    (chunksOf 10 l).length = (l.length + 9) / 10 := by
  intro N
  induction N with
  | zero =>
    intro l hl
    have : l = [] := List.eq_nil_of_length_eq_zero (by omega)
    subst this
    simp [chunksOf]
  | succ N ih =>
    intro l hl
    cases l with
    | nil => simp [chunksOf]
    | cons x xs =>
      show (chunksOf (9 + 1) (x :: xs)).length = ((x :: xs).length + 9) / 10
      unfold chunksOf
      simp only [List.length_cons]
      rw [show (9 : Nat) + 1 = 10 from rfl]
      rw [ih ((x :: xs).drop 10)
        (by rw [List.length_drop]; simp only [List.length_cons] at hl ⊢; omega)]
      simp only [List.length_drop, List.length_cons]
      omega

theorem chunksOf_dropLast_full {α : Type} (n : Nat) :
    ∀ (N : Nat) (l : List α), l.length ≤ N →
      ∀ c ∈ (chunksOf (n + 1) l).dropLast, c.length = n + 1 := by
  intro N
  induction N with
  | zero =>
    intro l hl
    have : l = [] := List.eq_nil_of_length_eq_zero (by omega)
    subst this
    simp [chunksOf]
  | succ N ih =>
    intro l hl c hc
    cases l with
    | nil => simp [chunksOf] at hc
    | cons x xs =>
      unfold chunksOf at hc
      cases hrest : chunksOf (n + 1) ((x :: xs).drop (n + 1)) with
      | nil => rw [hrest] at hc; simp at hc
      | cons r rs =>
        rw [hrest] at hc
        rw [List.dropLast_cons_of_ne_nil (by simp)] at hc
        rcases List.mem_cons.mp hc with rfl | hmem
        · have hne : (x :: xs).drop (n + 1) ≠ [] := by
            intro hnil
            rw [hnil] at hrest
            simp [chunksOf] at hrest
          have hlong : n + 1 < (x :: xs).length := by
            by_contra hcon
            push_neg at hcon
            exact hne (List.drop_eq_nil_of_le hcon)
          simp only [List.length_take]
          omega
        · rw [← hrest] at hmem
          exact ih ((x :: xs).drop (n + 1))
            (by rw [List.length_drop]; simp only [List.length_cons] at hl ⊢; omega) c hmem

theorem repairChunks_cons (gen : Gen) (c : ProjectConstraints)
    (k : Nat) (c0 : List LexiconEntry) (rest : List (List LexiconEntry)) :
    repairChunks gen c k (c0 :: rest) =
      match gen k (repairPrompt c c0) with
      | .error m => (.error m, [repairPrompt c c0])
      | .ok t =>
        match safeParseJSON t with
        | .error m => (.error m, [repairPrompt c c0])
        | .ok (.arr xs) =>
          (Except.map (fun x => xs ++ x) (repairChunks gen c (k + 1) rest).1,
            repairPrompt c c0 :: (repairChunks gen c (k + 1) rest).2)
        | .ok _ => (.error notIterableMsg, [repairPrompt c c0]) := rfl

theorem repairChunks_fail (gen : Gen) (c : ProjectConstraints) :
    ∀ (cs : List (List LexiconEntry)) (k j : Nat), j < cs.length →
    (∀ p, (∃ e, gen (k + j) p = .error e) ∨
          (∃ t e, gen (k + j) p = .ok t ∧ safeParseJSON t = .error e)) →
    ∃ m, (repairChunks gen c k cs).1 = .error m := by
  intro cs
  induction cs with
  | nil =>
    intro k j hj
    simp at hj
  | cons c0 rest ih =>
    intro k j hj hbad
    rw [repairChunks_cons]
    cases hg : gen k (repairPrompt c c0) with
    | error m => exact ⟨m, rfl⟩
    | ok t =>
      cases hp : safeParseJSON t with
      | error m => exact ⟨m, by simp only [hp]⟩
      | ok v =>
        cases j with
        | zero =>
          rcases hbad (repairPrompt c c0) with ⟨e, he⟩ | ⟨t2, e, ht2, hpe⟩
          · rw [Nat.add_zero] at he
            rw [he] at hg
            exact Except.noConfusion hg
          · rw [Nat.add_zero] at ht2
            rw [ht2] at hg
            injection hg with hg
            subst hg
            rw [hpe] at hp
            exact Except.noConfusion hp
        | succ j2 =>
          have hj2 : j2 < rest.length := by simp at hj; omega
          have hbad2 : ∀ p, (∃ e, gen ((k + 1) + j2) p = .error e) ∨
              (∃ t2 e, gen ((k + 1) + j2) p = .ok t2 ∧ safeParseJSON t2 = .error e) := by
            intro p
            have harith : (k + 1) + j2 = k + (j2 + 1) := by omega
            rw [harith]
            exact hbad p
          obtain ⟨m, hm⟩ := ih (k + 1) j2 hj2 hbad2
          cases v with
          | arr xs =>
            refine ⟨m, ?_⟩
            simp only [hp, hm]
            rfl
          | null => exact ⟨notIterableMsg, by simp only [hp]⟩
          | undef => exact ⟨notIterableMsg, by simp only [hp]⟩
          | bool b => exact ⟨notIterableMsg, by simp only [hp]⟩
          | num n => exact ⟨notIterableMsg, by simp only [hp]⟩
          | str s => exact ⟨notIterableMsg, by simp only [hp]⟩
          | obj kvs => exact ⟨notIterableMsg, by simp only [hp]⟩

theorem evolveChunks_cons (gen : Gen) (rules : List SoundChangeRule)
    (k : Nat) (c0 : List LexiconEntry) (rest : List (List LexiconEntry))
    (lex : List LexiconEntry) :
    evolveChunks gen rules k (c0 :: rest) lex =
      match gen k (evolvePrompt rules c0) with
      | .error m => (.error m, [evolvePrompt rules c0])
      | .ok t =>
        match safeParseJSON t with
        | .error m => (.error m, [evolvePrompt rules c0])
        | .ok (.arr rs) =>
          match evolveMergeAll lex rs with
          | .error m => (.error m, [evolvePrompt rules c0])
          | .ok lex2 =>
            ((evolveChunks gen rules (k + 1) rest lex2).1,
              evolvePrompt rules c0 :: (evolveChunks gen rules (k + 1) rest lex2).2)
        | .ok _ => (.error forEachMsg, [evolvePrompt rules c0]) := rfl

theorem evolveChunks_fail (gen : Gen) (rules : List SoundChangeRule) :
    ∀ (cs : List (List LexiconEntry)) (k j : Nat) (lex : List LexiconEntry), j < cs.length →
    (∀ p, (∃ e, gen (k + j) p = .error e) ∨
          (∃ t e, gen (k + j) p = .ok t ∧ safeParseJSON t = .error e)) →
    ∃ m, (evolveChunks gen rules k cs lex).1 = .error m := by
  intro cs
  induction cs with
  | nil =>
    intro k j lex hj
    simp at hj
  | cons c0 rest ih =>
    intro k j lex hj hbad
    rw [evolveChunks_cons]
    cases hg : gen k (evolvePrompt rules c0) with
    | error m => exact ⟨m, rfl⟩
    | ok t =>
      cases hp : safeParseJSON t with
      | error m => exact ⟨m, by simp only [hp]⟩
      | ok v =>
        cases j with
        | zero =>
          rcases hbad (evolvePrompt rules c0) with ⟨e, he⟩ | ⟨t2, e, ht2, hpe⟩
          · rw [Nat.add_zero] at he
            rw [he] at hg
            exact Except.noConfusion hg
          · rw [Nat.add_zero] at ht2
            rw [ht2] at hg
            injection hg with hg
            subst hg
            rw [hpe] at hp
            exact Except.noConfusion hp
        | succ j2 =>
          have hj2 : j2 < rest.length := by simp at hj; omega
          have hbad2 : ∀ p, (∃ e, gen ((k + 1) + j2) p = .error e) ∨
              (∃ t2 e, gen ((k + 1) + j2) p = .ok t2 ∧ safeParseJSON t2 = .error e) := by
            intro p
            have harith : (k + 1) + j2 = k + (j2 + 1) := by omega
            rw [harith]
            exact hbad p
          cases v with
          | arr rs =>
            cases hmg : evolveMergeAll lex rs with
            | error m => exact ⟨m, by simp only [hp, hmg]⟩
            | ok lex2 =>
              obtain ⟨m, hm⟩ := ih (k + 1) j2 lex2 hj2 hbad2
              refine ⟨m, ?_⟩
              simp only [hp, hmg, hm]
          | null => exact ⟨forEachMsg, by simp only [hp]⟩
          | undef => exact ⟨forEachMsg, by simp only [hp]⟩
          | bool b => exact ⟨forEachMsg, by simp only [hp]⟩
          | num n => exact ⟨forEachMsg, by simp only [hp]⟩
          | str s => exact ⟨forEachMsg, by simp only [hp]⟩
          | obj kvs => exact ⟨forEachMsg, by simp only [hp]⟩

theorem repairLexicon_fail (stored env : Option String) (gen : Gen)
    (entries : List LexiconEntry) (c : ProjectConstraints) (j : Nat)
    (hj : j < (chunksOf 15 entries).length)
    (hbad : ∀ p, (∃ e, gen j p = .error e) ∨
          (∃ t e, gen j p = .ok t ∧ safeParseJSON t = .error e)) :
    ∃ m, (repairLexicon stored env gen entries c).1 =
      { success := false, repairs := [], message := some m } := by
  have hne : entries ≠ [] := by
    intro h
    subst h
    simp [chunksOf] at hj
  unfold repairLexicon
  rw [if_neg hne]
  by_cases hkey : getApiKey stored env = ""
  · rw [if_pos hkey]
    exact ⟨_, rfl⟩
  · rw [if_neg hkey]
    have hbad0 : ∀ p, (∃ e, gen (0 + j) p = .error e) ∨
        (∃ t e, gen (0 + j) p = .ok t ∧ safeParseJSON t = .error e) := by
      intro p
      rw [Nat.zero_add]
      exact hbad p
    obtain ⟨m, hm⟩ := repairChunks_fail gen c (chunksOf 15 entries) 0 j hj hbad0
    cases heq : repairChunks gen c 0 (chunksOf 15 entries) with
    | mk r log =>
      rw [heq] at hm
      simp only at hm
      subst hm
      exact ⟨"AI Repair Failed: " ++ jsErrMsg m ++ ". Verifica tu API key en Settings.", rfl⟩

theorem evolveWords_fail (stored env : Option String) (gen : Gen)
    (words : List LexiconEntry) (rules : List SoundChangeRule) (j : Nat)
    (hj : j < (chunksOf 10 words).length)
    (hbad : ∀ p, (∃ e, gen j p = .error e) ∨
          (∃ t e, gen j p = .ok t ∧ safeParseJSON t = .error e)) :
    (evolveWords stored env gen words rules).1 = words := by
  unfold evolveWords
  cases words with
  | nil => cases rules <;> rfl
  | cons w ws =>
    cases rules with
    | nil => rfl
    | cons r rs =>
      by_cases hkey : getApiKey stored env = ""
      · rw [if_pos hkey]
      · rw [if_neg hkey]
        have hbad0 : ∀ p, (∃ e, gen (0 + j) p = .error e) ∨
            (∃ t e, gen (0 + j) p = .ok t ∧ safeParseJSON t = .error e) := by
          intro p
          rw [Nat.zero_add]
          exact hbad p
        obtain ⟨m, hm⟩ := evolveChunks_fail gen (r :: rs) (chunksOf 10 (w :: ws)) 0 j
          (w :: ws) hj hbad0
        cases heq : evolveChunks gen (r :: rs) 0 (chunksOf 10 (w :: ws)) (w :: ws) with
        | mk res log =>
          rw [heq] at hm
          simp only at hm
          subst hm
          rfl

theorem entryJson_wf (e : LexiconEntry) : jsonWF (entryJson e) = true := by
  show (decide (List.Nodup ["id", "word", "ipa"]) &&
    (jsonWF (.str e.id) && (jsonWF (.str e.word) && (jsonWF (.str e.ipa) && true)))) = true
  rw [show decide (List.Nodup ["id", "word", "ipa"]) = true from by decide]
  rfl

theorem entryList_wf (l : List LexiconEntry) : jsonWF (.arr (l.map entryJson)) = true := by
  show jsonWFList (l.map entryJson) = true
  induction l with
  | nil => rfl
  | cons e es ih =>
    show (jsonWF (entryJson e) && jsonWFList (es.map entryJson)) = true
    rw [entryJson_wf e, ih]
    rfl

theorem repairChunks_echo (gen : Gen) (c : ProjectConstraints) :
    ∀ (cs : List (List LexiconEntry)) (k : Nat),
    (∀ j, j < cs.length → ∀ p, gen (k + j) p =
        .ok ("```json\n" ++ Json.serialize (.arr ((cs.getD j []).map entryJson)) ++ "\n```")) →
    repairChunks gen c k cs =
      (.ok ((cs.map (fun ch => ch.map entryJson)).flatten), cs.map (repairPrompt c)) := by
  intro cs
  induction cs with
  | nil => intro k _; rfl
  | cons c0 rest ih =>
    intro k hecho
    rw [repairChunks_cons]
    have h0 := hecho 0 (by simp) (repairPrompt c c0)
    rw [Nat.add_zero] at h0
    simp only [List.getD_cons_zero] at h0
    have hrec := ih (k + 1) (by
      intro j hjl p
      have harith : (k + 1) + j = k + (j + 1) := by omega
      rw [harith]
      have := hecho (j + 1) (by simp; omega) p
      simpa using this)
    simp only [h0]
    simp only [safeParseJSON_fenced_arr (c0.map entryJson) (entryList_wf c0)]
    simp only [hrec]
    simp only [List.map_cons, List.flatten_cons]
    rfl

theorem repairLexicon_echo (stored env : Option String)
    (entries : List LexiconEntry) (c : ProjectConstraints)
    (hkey : ¬ getApiKey stored env = "") :
    repairLexicon stored env (fencedEchoGen entries) entries c =
      ({ success := true, repairs := entries.map entryJson, message := none },
       (chunksOf 15 entries).map (repairPrompt c)) := by
  unfold repairLexicon
  by_cases hne : entries = []
  · subst hne
    simp [chunksOf]
  · rw [if_neg hne, if_neg hkey]
    have hecho : ∀ j, j < (chunksOf 15 entries).length → ∀ p,
        fencedEchoGen entries (0 + j) p =
        .ok ("```json\n" ++ Json.serialize (.arr (((chunksOf 15 entries).getD j []).map entryJson)) ++ "\n```") := by
      intro j _ p
      unfold fencedEchoGen
      rw [Nat.zero_add]
    rw [repairChunks_echo (fencedEchoGen entries) c (chunksOf 15 entries) 0 hecho]
    have hflat : ((chunksOf 15 entries).map (fun ch => ch.map entryJson)).flatten
        = entries.map entryJson := by
      rw [← List.map_flatten]
      rw [show (15 : Nat) = 14 + 1 from rfl]
      rw [chunksOf_flatten 14 entries.length entries le_rfl]
    simp [hflat]

theorem lastIdxOf_isSome_iff (c : Char) : ∀ l : List Char,
    (lastIdxOf c l).isSome = true ↔ c ∈ l := by
  intro l
  induction l with
  | nil => simp [lastIdxOf]
  | cons x rest ih =>
    simp only [lastIdxOf]
    cases h : lastIdxOf c rest with
    | some i =>
      simp only [Option.isSome_some, true_iff]
      exact List.mem_cons_of_mem _ (ih.mp (by simp [h]))
    | none =>
      rw [h] at ih
      simp only [Option.isSome_none, Bool.false_eq_true, false_iff] at ih
      by_cases hx : x = c
      · simp [hx]
      · simp only [if_neg hx, Option.isSome_none, Bool.false_eq_true, false_iff,
          List.mem_cons]
        rintro (rfl | hm)
        · exact hx rfl
        · exact ih hm

theorem hasBracePair_char : ∀ cs : List Char,
    hasBracePair cs = (match firstIdxOf lcurl cs, lastIdxOf rcurl cs with
      | some f, some l => decide (f < l)
      | _, _ => false) := by
  intro cs
  have hne : (lcurl = rcurl) = False := eq_false (by decide)
  induction cs with
  | nil => rfl
  | cons x rest ih =>
    simp only [hasBracePair, firstIdxOf, lastIdxOf]
    by_cases hx : x = lcurl
    · subst hx
      simp only [if_pos rfl, hne, if_false]
      cases h : lastIdxOf rcurl rest with
      | some i =>
        have hmem : rcurl ∈ rest := (lastIdxOf_isSome_iff rcurl rest).mp (by simp [h])
        simp [List.elem_eq_mem, hmem, Nat.zero_lt_succ]
      | none =>
        have hnm : rcurl ∉ rest := fun hm => by
          have := (lastIdxOf_isSome_iff rcurl rest).mpr hm
          rw [h] at this; exact absurd this (by simp)
        rw [h] at ih
        simp only [List.contains, List.elem_eq_mem, hnm, decide_eq_false,
          Bool.and_false, Bool.false_or]
        rw [ih]
        cases hf : firstIdxOf lcurl rest <;> simp
    · simp only [if_neg hx, eq_false hx, decide_False, Bool.false_and, Bool.false_or]
      cases h : lastIdxOf rcurl rest with
      | some i =>
        rw [h] at ih
        rw [ih]
        cases hf : firstIdxOf lcurl rest with
        | some f =>
          show decide (f < i) = decide (f + 1 < i + 1)
          simp only [decide_eq_decide]
          constructor <;> omega
        | none => simp
      | none =>
        rw [h] at ih
        rw [ih]
        have hihf : (match firstIdxOf lcurl rest, (none : Option Nat) with
            | some f, some l => decide (f < l)
            | _, _ => false) = false := by
          cases firstIdxOf lcurl rest <;> rfl
        rw [hihf]
        by_cases hr : x = rcurl
        · simp only [if_pos hr]
          cases hf : firstIdxOf lcurl rest <;> simp
        · simp only [if_neg hr]
          cases hf : firstIdxOf lcurl rest <;> simp

theorem selectCandidate_eq_amended (cs : List Char) :
    selectCandidate cs = specAmendedSelect cs := by
  unfold selectCandidate specAmendedSelect
  cases hf : fenceMatch cs with
  | some inner =>
    cases inner with
    | cons c tl => rfl
    | nil =>
      rw [hasBracePair_char]
      cases h1 : firstIdxOf lcurl cs with
      | none =>
        cases h2 : lastIdxOf rcurl cs with
        | none => simp
        | some l => simp
      | some f =>
        cases h2 : lastIdxOf rcurl cs with
        | none => simp
        | some l =>
          by_cases hfl : f < l
          · simp [hfl]
          · simp [hfl]
  | none =>
    rw [hasBracePair_char]
    cases h1 : firstIdxOf lcurl cs with
    | none =>
      cases h2 : lastIdxOf rcurl cs with
      | none => simp
      | some l => simp
    | some f =>
      cases h2 : lastIdxOf rcurl cs with
      | none => simp
      | some l =>
        by_cases hfl : f < l
        · simp [hfl]
        · simp [hfl]

theorem safeParseJSON_eq_amended (text : String) :
    safeParseJSON text = specAmendedExtract text := by
  unfold safeParseJSON specAmendedExtract
  rw [selectCandidate_eq_amended]


theorem cmdStep_eq (mods : List Json) (e : LexiconEntry) :
    (do match ← findMod mods e.id with
        | some m => applyMod e m
        | none => pure e : Except String LexiconEntry) =
      (match findMod mods e.id with
       | .error m => .error m
       | .ok none => .ok e
       | .ok (some m) => applyMod e m) := by
  cases hf : findMod mods e.id with
  | error m => simp only [hf]; rfl
  | ok o => cases o <;> simp only [hf] <;> rfl

theorem commandMerge_cons (e : LexiconEntry) (rest : List LexiconEntry) (mods : List Json) :
    commandMerge (e :: rest) mods =
      (match findMod mods e.id with
       | .error m => .error m
       | .ok none => (commandMerge rest mods).map (fun l => e :: l)
       | .ok (some m) =>
         match applyMod e m with
         | .error m2 => .error m2
         | .ok e2 => (commandMerge rest mods).map (fun l => e2 :: l)) := by
  unfold commandMerge
  rw [← List.mapM'_eq_mapM, ← List.mapM'_eq_mapM]
  simp only [List.mapM']
  rw [cmdStep_eq]
  cases hf : findMod mods e.id with
  | error m => simp only [hf]; rfl
  | ok o =>
    cases o with
    | none =>
      simp only [hf]
      cases hr : List.mapM' (fun e => do
          match ← findMod mods e.id with
          | some m => applyMod e m
          | none => pure e) rest <;> rfl
    | some m =>
      simp only [hf]
      cases ha : applyMod e m with
      | error m2 => simp only [ha]; rfl
      | ok e2 =>
        simp only [ha]
        cases hr : List.mapM' (fun e => do
            match ← findMod mods e.id with
            | some m => applyMod e m
            | none => pure e) rest <;> rfl

theorem commandMerge_unmatched : ∀ (lexicon : List LexiconEntry) (mods : List Json),
    (∀ e ∈ lexicon, findMod mods e.id = .ok none) →
    commandMerge lexicon mods = .ok lexicon := by
  intro lexicon
  induction lexicon with
  | nil => intro mods _; rfl
  | cons e rest ih =>
    intro mods h
    rw [commandMerge_cons, h e (by simp),
      ih mods (fun x hx => h x (List.mem_cons_of_mem _ hx))]
    rfl

theorem evolveApply_nomatch (lex : List LexiconEntry) (r : Json) (ow : Json)
    (how : getProp r "originalWord" = .ok ow)
    (hnm : ∀ e ∈ lex, jsStrictEqStr ow e.word = false) :
    evolveApply lex r = .ok lex := by
  unfold evolveApply
  rw [how]
  have hfind : lex.findIdx? (fun w => jsStrictEqStr ow w.word) = none := by
    rw [List.findIdx?_eq_none_iff]
    exact hnm
  show (match lex.findIdx? (fun w => jsStrictEqStr ow w.word) with
    | none => pure lex
    | some i => _) = Except.ok lex
  rw [hfind]
  rfl


theorem safeParseJSON_emptyArr : safeParseJSON "[]" = .ok (.arr []) := rfl

theorem evolveChunks_emptyResp (rules : List SoundChangeRule) :
    ∀ (cs : List (List LexiconEntry)) (k : Nat) (lex : List LexiconEntry),
    evolveChunks emptyArrGen rules k cs lex = (.ok lex, cs.map (evolvePrompt rules)) := by
  intro cs
  induction cs with
  | nil => intro k lex; rfl
  | cons c0 rest ih =>
    intro k lex
    rw [evolveChunks_cons]
    have hg : emptyArrGen k (evolvePrompt rules c0) = .ok "[]" := rfl
    have hm : evolveMergeAll lex [] = .ok lex := rfl
    simp only [hg, safeParseJSON_emptyArr, hm, ih, List.map_cons]

theorem evolveWords_emptyResp (stored env : Option String)
    (words : List LexiconEntry) (rules : List SoundChangeRule)
    (hw : words ≠ []) (hr : rules ≠ []) (hkey : ¬ getApiKey stored env = "") :
    evolveWords stored env emptyArrGen words rules =
      (words, (chunksOf 10 words).map (evolvePrompt rules)) := by
  unfold evolveWords
  cases words with
  | nil => exact absurd rfl hw
  | cons w ws =>
    cases rules with
    | nil => exact absurd rfl hr
    | cons r rs =>
      rw [if_neg hkey]
      rw [evolveChunks_emptyResp (r :: rs) (chunksOf 10 (w :: ws)) 0 (w :: ws)]

theorem generatePhonology_emptyKey (stored env : Option String) (gen : Gen)
    (d : String) (hkey : getApiKey stored env = "") :
    generatePhonology stored env gen d = (defaultPhonology, []) := by
  unfold generatePhonology
  rw [if_pos hkey]

theorem generatePhonology_transport (stored env : Option String) (m d : String)
    (hkey : ¬ getApiKey stored env = "") :
    generatePhonology stored env (fun _ _ => .error m) d =
      (defaultPhonology, [phonologyPrompt d]) := by
  unfold generatePhonology
  rw [if_neg hkey]

theorem generatePhonology_resp (stored env : Option String) (resp d : String)
    (hkey : ¬ getApiKey stored env = "") :
    (generatePhonology stored env (fun _ _ => .ok resp) d).1 =
      (match safeParsePhonologyConfig resp with
       | .ok cfg => cfg
       | .error _ => defaultPhonology) := by
  unfold generatePhonology
  rw [if_neg hkey]
  cases h : safeParsePhonologyConfig resp <;> simp [h]

theorem defaultPhonologyJson_extract :
    safeParseJSON (Json.serialize defaultPhonologyJson) = .ok defaultPhonologyJson := by
  unfold defaultPhonologyJson
  exact safeParseJSON_ser_obj _ (by decide)

theorem defaultPhonologyJson_parse :
    safeParsePhonologyConfig (Json.serialize defaultPhonologyJson) = .ok defaultPhonology := by
  unfold safeParsePhonologyConfig
  rw [defaultPhonologyJson_extract]
  rfl


theorem evolveApplyH_extends (ents : List LexiconEntry) (refs : List Nat) (r : Json) :
    ∃ tail, (evolveApplyH ents refs r).2.1 = ents ++ tail := by
  unfold evolveApplyH
  repeat' split
  all_goals first
    | exact ⟨_, rfl⟩
    | exact ⟨[], by simp⟩

theorem evolveMergeAllH_extends : ∀ (rs : List Json) (ents : List LexiconEntry) (refs : List Nat),
    ∃ tail, (evolveMergeAllH ents refs rs).2.1 = ents ++ tail := by
  intro rs
  induction rs with
  | nil => intro ents refs; exact ⟨[], by simp [evolveMergeAllH]⟩
  | cons r rest ih =>
    intro ents refs
    unfold evolveMergeAllH
    obtain ⟨t1, ht1⟩ := evolveApplyH_extends ents refs r
    cases ha : evolveApplyH ents refs r with
    | mk b p =>
      obtain ⟨e2, v2⟩ := p
      rw [ha] at ht1
      simp only at ht1
      cases b with
      | false => exact ⟨t1, by simp only [ha]; exact ht1⟩
      | true =>
        obtain ⟨t2, ht2⟩ := ih e2 v2
        refine ⟨t1 ++ t2, ?_⟩
        simp only [ha]
        rw [ht2, ht1, List.append_assoc]

theorem evolveChunksH_extends (gen : Gen) (rules : List SoundChangeRule) :
    ∀ (cs : List (List LexiconEntry)) (k : Nat) (ents : List LexiconEntry) (refs : List Nat),
    ∃ tail, (evolveChunksH gen rules k cs ents refs).2.1 = ents ++ tail := by
  intro cs
  induction cs with
  | nil => intro k ents refs; exact ⟨[], by simp [evolveChunksH]⟩
  | cons c0 rest ih =>
    intro k ents refs
    unfold evolveChunksH
    cases hg : gen k (evolvePrompt rules c0) with
    | error m => exact ⟨[], by simp [hg]⟩
    | ok t =>
      cases hp : safeParseJSON t with
      | error m => exact ⟨[], by simp [hg, hp]⟩
      | ok v =>
        cases v with
        | arr rs =>
          simp only [hg, hp]
          obtain ⟨t1, ht1⟩ := evolveMergeAllH_extends rs ents refs
          cases hm : evolveMergeAllH ents refs rs with
          | mk b p =>
            obtain ⟨e2, v2⟩ := p
            rw [hm] at ht1
            simp only at ht1
            cases b with
            | false => exact ⟨t1, by simp only [hm]; exact ht1⟩
            | true =>
              obtain ⟨t2, ht2⟩ := ih (k + 1) e2 v2
              refine ⟨t1 ++ t2, ?_⟩
              simp only [hm]
              show (evolveChunksH gen rules (k + 1) rest e2 v2).2.1 = ents ++ (t1 ++ t2)
              rw [ht2, ht1, List.append_assoc]
        | null => exact ⟨[], by simp [hg, hp]⟩
        | undef => exact ⟨[], by simp [hg, hp]⟩
        | bool b => exact ⟨[], by simp [hg, hp]⟩
        | num n => exact ⟨[], by simp [hg, hp]⟩
        | str s => exact ⟨[], by simp [hg, hp]⟩
        | obj kvs => exact ⟨[], by simp [hg, hp]⟩

theorem evolveWordsHeap_frame (stored env : Option String) (gen : Gen)
    (h : Heap) (argArr : Nat) (rules : List SoundChangeRule) :
    (∃ t, (evolveWordsHeap stored env gen h argArr rules).1.entries = h.entries ++ t) ∧
    (∃ t, (evolveWordsHeap stored env gen h argArr rules).1.arrays = h.arrays ++ t) := by
  unfold evolveWordsHeap
  cases hw : h.arrays.getD argArr [] with
  | nil => exact ⟨⟨[], by simp⟩, ⟨[], by simp⟩⟩
  | cons w ws =>
    cases rules with
    | nil => exact ⟨⟨[], by simp⟩, ⟨[], by simp⟩⟩
    | cons r rs =>
      dsimp only
      by_cases hkey : getApiKey stored env = ""
      · rw [if_pos hkey]
        exact ⟨⟨[], by simp⟩, ⟨[], by simp⟩⟩
      · rw [if_neg hkey]
        obtain ⟨t1, ht1⟩ := evolveChunksH_extends gen (r :: rs)
          (chunksOf 10 ((w :: ws).map (heapEntry h))) 0 h.entries (w :: ws)
        cases hc : evolveChunksH gen (r :: rs) 0
            (chunksOf 10 ((w :: ws).map (heapEntry h))) h.entries (w :: ws) with
        | mk b p =>
          obtain ⟨e2, v2, log⟩ := p
          rw [hc] at ht1
          simp only at ht1
          cases b <;> exact ⟨⟨t1, ht1⟩, ⟨[v2], rfl⟩⟩

theorem cmdMergeH_extends (mods : List Json) : ∀ (refs : List Nat) (ents : List LexiconEntry),
    ∃ tail, (cmdMergeH mods ents refs).2.1 = ents ++ tail := by
  intro refs
  induction refs with
  | nil => intro ents; exact ⟨[], by simp [cmdMergeH]⟩
  | cons r rs ih =>
    intro ents
    unfold cmdMergeH
    cases hf : findMod mods (ents.getD r defaultEntry).id with
    | error m => exact ⟨[], by simp only [hf]; simp⟩
    | ok o =>
      cases o with
      | none =>
        obtain ⟨t1, ht1⟩ := ih ents
        exact ⟨t1, by simp only [hf]; exact ht1⟩
      | some m =>
        cases ha : applyMod (ents.getD r defaultEntry) m with
        | error m2 => exact ⟨[], by simp only [hf, ha]; simp⟩
        | ok newEnt =>
          obtain ⟨t1, ht1⟩ := ih (ents ++ [newEnt])
          refine ⟨[newEnt] ++ t1, ?_⟩
          simp only [hf, ha]
          show (cmdMergeH mods (ents ++ [newEnt]) rs).2.1 = ents ++ ([newEnt] ++ t1)
          rw [ht1, List.append_assoc]

theorem processCommandAIHeap_frame (stored env : Option String) (gen : Gen)
    (h : Heap) (argArr : Nat) (instruction : String) (c : ProjectConstraints) :
    (∃ t, (processCommandAIHeap stored env gen h argArr instruction c).1.entries
        = h.entries ++ t) ∧
    (∃ t, (processCommandAIHeap stored env gen h argArr instruction c).1.arrays
        = h.arrays ++ t) := by
  unfold processCommandAIHeap
  cases hw : h.arrays.getD argArr [] with
  | nil => exact ⟨⟨[], by simp⟩, ⟨[], by simp⟩⟩
  | cons w ws =>
    dsimp only
    by_cases hkey : getApiKey stored env = ""
    · rw [if_pos hkey]
      exact ⟨⟨[], by simp⟩, ⟨[], by simp⟩⟩
    · rw [if_neg hkey]
      cases hg : gen 0 (commandPrompt instruction c) with
      | error m => exact ⟨⟨[], by simp [hg]⟩, ⟨[], by simp [hg]⟩⟩
      | ok t =>
        try simp only [hg]
        cases hp : safeParseJSON t with
        | error m => exact ⟨⟨[], by simp [hp]⟩, ⟨[], by simp [hp]⟩⟩
        | ok v =>
          try simp only [hp]
          cases hmv : getProp v "modifications" with
          | error m => exact ⟨⟨[], by simp [hmv]⟩, ⟨[], by simp [hmv]⟩⟩
          | ok mv =>
            try simp only [hmv]
            cases hif : (if jsTruthy mv then mv else Json.arr []) with
            | arr mods =>
              try simp only [hif]
              obtain ⟨t1, ht1⟩ := cmdMergeH_extends mods (w :: ws) h.entries
              cases hm : cmdMergeH mods h.entries (w :: ws) with
              | mk b p =>
                obtain ⟨e2, out⟩ := p
                rw [hm] at ht1
                simp only at ht1
                try simp only [hm]
                cases b with
                | true => exact ⟨⟨t1, ht1⟩, ⟨[out], rfl⟩⟩
                | false => exact ⟨⟨t1, ht1⟩, ⟨[], by simp⟩⟩
            | null => exact ⟨⟨[], by simp [hif]⟩, ⟨[], by simp [hif]⟩⟩
            | undef => exact ⟨⟨[], by simp [hif]⟩, ⟨[], by simp [hif]⟩⟩
            | bool b => exact ⟨⟨[], by simp [hif]⟩, ⟨[], by simp [hif]⟩⟩
            | num nv => exact ⟨⟨[], by simp [hif]⟩, ⟨[], by simp [hif]⟩⟩
            | str s => exact ⟨⟨[], by simp [hif]⟩, ⟨[], by simp [hif]⟩⟩
            | obj kvs => exact ⟨⟨[], by simp [hif]⟩, ⟨[], by simp [hif]⟩⟩

theorem processCommandAIHeap_fresh (stored env : Option String) (gen : Gen)
    (h : Heap) (argArr : Nat) (instruction : String) (c : ProjectConstraints) :
    ((processCommandAIHeap stored env gen h argArr instruction c).2.1.all
      (fun r => decide (h.arrays.length ≤ r))) = true := by
  unfold processCommandAIHeap
  cases hw : h.arrays.getD argArr [] with
  | nil => rfl
  | cons w ws =>
    dsimp only
    by_cases hkey : getApiKey stored env = ""
    · rw [if_pos hkey]
      rfl
    · rw [if_neg hkey]
      cases hg : gen 0 (commandPrompt instruction c) with
      | error m => simp [hg]
      | ok t =>
        try simp only [hg]
        cases hp : safeParseJSON t with
        | error m => simp [hp]
        | ok v =>
          try simp only [hp]
          cases hmv : getProp v "modifications" with
          | error m => simp [hmv]
          | ok mv =>
            try simp only [hmv]
            cases hif : (if jsTruthy mv then mv else Json.arr []) with
            | arr mods =>
              try simp only [hif]
              cases hm : cmdMergeH mods h.entries (w :: ws) with
              | mk b p =>
                obtain ⟨e2, out⟩ := p
                try simp only [hm]
                cases b <;> simp
            | null => simp [hif]
            | undef => simp [hif]
            | bool b => simp [hif]
            | num nv => simp [hif]
            | str s => simp [hif]
            | obj kvs => simp [hif]


theorem chunksOf_small {α : Type} (n : Nat) (l : List α)
    (hne : l ≠ []) (hlen : l.length ≤ n + 1) :
    chunksOf (n + 1) l = [l] := by
  cases l with
  | nil => exact absurd rfl hne
  | cons c tl =>
    unfold chunksOf
    rw [List.take_of_length_le hlen, List.drop_eq_nil_of_le hlen]
    simp [chunksOf]

theorem evolveWords_cons (stored env : Option String) (gen : Gen)
    (w : LexiconEntry) (ws : List LexiconEntry)
    (r : SoundChangeRule) (rs : List SoundChangeRule)
    (hkey : ¬ getApiKey stored env = "") :
    evolveWords stored env gen (w :: ws) (r :: rs) =
      (match evolveChunks gen (r :: rs) 0 (chunksOf 10 (w :: ws)) (w :: ws) with
       | (.ok lex, log) => (lex, log)
       | (.error _, log) => (w :: ws, log)) := by
  unfold evolveWords
  rw [if_neg hkey]


/-- C1: `safeParseJSON` tries the four candidate heuristics in the
specified priority order — fenced block, first-brace-to-last-brace
substring, aggressive regex match, trimmed text — but a later step is
taken exactly when the earlier one fails to match syntactically (for
the fence step: no fenced block, or one whose captured contents are the
empty — falsy — string), never because the earlier candidate failed to
parse: for every input the result coincides with the amended
syntactic-fallthrough selection. -/
theorem c1_extraction_priority (text : String) :
    safeParseJSON text = specAmendedExtract text :=
  safeParseJSON_eq_amended text

/-- C1 counterexample: a fenced block whose contents do not parse,
followed by prose containing a parseable brace pair.  The claimed
parse-driven fallthrough recovers the object at step 2, but
`safeParseJSON` commits to the fence and throws. -/
theorem c1_fallthrough_counterexample :
    safeParseJSON c1Input = .error noStartMsg ∧
    specBacktrackExtract c1Input = some (.obj [("a", .num 1)]) :=
  ⟨rfl, rfl⟩

/-- C2: when one chunk's remote call or its parse fails, `repairLexicon`
fails for the whole operation with `success = false` and an empty repair
list, while `evolveWords` under the same kind of fault at any chunk
returns the original word list unchanged. -/
theorem c2_failure_policies (stored env : Option String) (gen : Gen)
    (entries words : List LexiconEntry) (c : ProjectConstraints)
    (rules : List SoundChangeRule) (jr je : Nat)
    (hjr : jr < (chunksOf 15 entries).length)
    (hje : je < (chunksOf 10 words).length)
    (hbadr : ∀ p, (∃ e, gen jr p = .error e) ∨
      (∃ t e, gen jr p = .ok t ∧ safeParseJSON t = .error e))
    (hbade : ∀ p, (∃ e, gen je p = .error e) ∨
      (∃ t e, gen je p = .ok t ∧ safeParseJSON t = .error e)) :
    (∃ m, (repairLexicon stored env gen entries c).1 =
      { success := false, repairs := [], message := some m }) ∧
    (evolveWords stored env gen words rules).1 = words :=
  ⟨repairLexicon_fail stored env gen entries c jr hjr hbadr,
   evolveWords_fail stored env gen words rules je hje hbade⟩

/-- C2 witness: an adapter whose every call is a transport error, on a
37-entry lexicon, with the fault position taken as the second chunk. -/
theorem c2_failure_policies_witness :
    (∃ m, (repairLexicon someKey none errGen entries37 freeConstraints).1 =
      { success := false, repairs := [], message := some m }) ∧
    (evolveWords someKey none errGen entries37 oneRule).1 = entries37 := by
  have hlen : entries37.length = 37 := by simp [entries37]
  have h15 : (chunksOf 15 entries37).length = 3 := by
    rw [chunksOf15_count entries37.length entries37 le_rfl, hlen]
  have h10 : (chunksOf 10 entries37).length = 4 := by
    rw [chunksOf10_count entries37.length entries37 le_rfl, hlen]
  exact c2_failure_policies someKey none errGen entries37 entries37 freeConstraints
    oneRule 1 1 (by rw [h15]; decide) (by rw [h10]; decide)
    (fun p => Or.inl ⟨"boom", rfl⟩) (fun p => Or.inl ⟨"boom", rfl⟩)

/-- C3 (amended): the orchestrators partition the input into contiguous
chunks (15 for repair, 10 for evolution) whose concatenation is the
input, all of size at most the chunk size and all but the last of
exactly the chunk size, and issue exactly ceil(n/size) sequential
adapter calls in chunk order; an echo adapter must wrap its response so
extraction succeeds (here: a fenced JSON array), and then the repairs
come back concatenated in input order. -/
theorem c3_batch_orchestration (stored env : Option String)
    (entries words : List LexiconEntry) (c : ProjectConstraints)
    (rules : List SoundChangeRule)
    (hkey : ¬ getApiKey stored env = "") (hw : words ≠ []) (hr : rules ≠ []) :
    repairLexicon stored env (fencedEchoGen entries) entries c =
      ({ success := true, repairs := entries.map entryJson, message := none },
       (chunksOf 15 entries).map (repairPrompt c)) ∧
    evolveWords stored env emptyArrGen words rules =
      (words, (chunksOf 10 words).map (evolvePrompt rules)) ∧
    (chunksOf 15 entries).length = (entries.length + 14) / 15 ∧
    (chunksOf 10 words).length = (words.length + 9) / 10 ∧
    (chunksOf 15 entries).flatten = entries ∧
    (chunksOf 10 words).flatten = words ∧
    (∀ ch ∈ chunksOf 15 entries, ch.length ≤ 15) ∧
    (∀ ch ∈ (chunksOf 15 entries).dropLast, ch.length = 15) :=
  ⟨repairLexicon_echo stored env entries c hkey,
   evolveWords_emptyResp stored env words rules hw hr hkey,
   chunksOf15_count entries.length entries le_rfl,
   chunksOf10_count words.length words le_rfl,
   chunksOf_flatten 14 entries.length entries le_rfl,
   chunksOf_flatten 9 words.length words le_rfl,
   chunksOf_le 14 entries.length entries le_rfl,
   chunksOf_dropLast_full 14 entries.length entries le_rfl⟩

/-- C3 witness: 37 entries at chunk size 15 make exactly 3 calls, and
the fenced identity echo returns all 37 records in input order. -/
theorem c3_batch_orchestration_witness :
    ¬ getApiKey someKey none = "" ∧
    repairLexicon someKey none (fencedEchoGen entries37) entries37 freeConstraints =
      ({ success := true, repairs := entries37.map entryJson, message := none },
       (chunksOf 15 entries37).map (repairPrompt freeConstraints)) ∧
    (chunksOf 15 entries37).length = 3 := by
  have h := c3_batch_orchestration someKey none entries37 entries37 freeConstraints
    oneRule (by decide) (by simp [entries37]) (by simp [oneRule])
  refine ⟨by decide, h.1, ?_⟩
  rw [h.2.2.1]
  simp [entries37]

/-- C3 counterexample: a bare identity echo (the serialized JSON array
itself, unfenced) is mangled by the first-brace-to-last-brace heuristic,
so the repair operation fails instead of echoing the input back. -/
theorem c3_bare_echo_counterexample :
    (repairLexicon someKey none (bareEchoGen chainWords2) chainWords2 freeConstraints).1 =
      { success := false, repairs := [],
        message := some "AI Repair Failed: Unexpected token in JSON. Verifica tu API key en Settings." } := by
  have hch : chunksOf 15 chainWords2 = [chainWords2] :=
    chunksOf_small 14 chainWords2 (by decide) (by decide)
  have hg : bareEchoGen chainWords2 0 (repairPrompt freeConstraints chainWords2) =
      .ok (Json.serialize (.arr (chainWords2.map entryJson))) := by
    unfold bareEchoGen
    rw [hch]
    rfl
  have hp : safeParseJSON (Json.serialize (.arr (chainWords2.map entryJson))) =
      .error syntaxErrMsg := rfl
  unfold repairLexicon
  rw [if_neg (by decide : ¬ chainWords2 = []),
      if_neg (by decide : ¬ getApiKey someKey none = ""), hch, repairChunks_cons]
  simp only [hg, hp]
  rfl

/-- C4: on every value the extractor can produce, the phonology
normalizer never fails and applies the field-by-field rule: string
fields are kept exactly when the source value is a string and default to
"" otherwise, and sequence fields are kept exactly when the source value
is an array and default to [] otherwise; the empty object gives the
all-empty configuration, and wrong-typed fields default while right-typed
fields are preserved. -/
theorem c4_phonology_normalizer (text : String) (v : Json)
    (h : safeParseJSON text = .ok v) :
    safeParsePhonologyConfig text = .ok (specNormalize v) ∧
    normalizePhonology (.obj []) = .ok ⟨"", "", [], [], "", []⟩ ∧
    normalizePhonology (.obj [("name", .num 5), ("consonants", .str "not-array"),
        ("description", .str "d")]) = .ok ⟨"", "d", [], [], "", []⟩ :=
  ⟨safeParsePhonologyConfig_ok text v h, rfl, rfl⟩

/-- C4 witness: a concrete extracted object with one string field. -/
theorem c4_phonology_normalizer_witness :
    safeParseJSON "\x7b\"name\":\"X\"\x7d" = .ok (.obj [("name", .str "X")]) ∧
    safeParsePhonologyConfig "\x7b\"name\":\"X\"\x7d" =
      .ok (specNormalize (.obj [("name", .str "X")])) :=
  ⟨rfl, (c4_phonology_normalizer "\x7b\"name\":\"X\"\x7d" (.obj [("name", .str "X")]) rfl).1⟩

/-- C5 (amended): `processCommandAI` matches result records onto the
lexicon by identifier — every entry with no matching record passes
through unchanged and records matching no entry are dropped — and the
spec's concrete command case holds exactly; `evolveWords`, however,
matches each record against the current (already evolved) word text
sequentially: a record whose `originalWord` matches no current word
leaves the accumulating lexicon unchanged. -/
theorem c5_merge_rules :
    (∀ (lexicon : List LexiconEntry) (mods : List Json),
      (∀ e ∈ lexicon, findMod mods e.id = .ok none) →
      commandMerge lexicon mods = .ok lexicon) ∧
    (∀ (lex : List LexiconEntry) (r ow : Json),
      getProp r "originalWord" = .ok ow →
      (∀ e ∈ lex, jsStrictEqStr ow e.word = false) →
      evolveApply lex r = .ok lex) ∧
    (processCommandAI someKey none cmdGen cmdLex "instr" freeConstraints).1 =
      { success := true, modifiedCount := 1,
        newLexicon := some [{ id := "a", word := "FOO", ipa := "" },
                            { id := "b", word := "bar", ipa := "" }],
        message := none } :=
  ⟨commandMerge_unmatched, evolveApply_nomatch, rfl⟩

/-- C5 witness: no records leave the command lexicon unchanged, and an
evolution record matching no word leaves the word list unchanged. -/
theorem c5_merge_rules_witness :
    commandMerge cmdLex [] = .ok cmdLex ∧
    evolveApply chainWords2 (.obj [("originalWord", .str "zzz")]) = .ok chainWords2 := by
  refine ⟨c5_merge_rules.1 cmdLex [] (fun e he => rfl),
    c5_merge_rules.2.1 chainWords2 (.obj [("originalWord", .str "zzz")]) (.str "zzz") rfl ?_⟩
  intro e he
  simp only [chainWords2, List.mem_cons, List.mem_singleton] at he
  rcases he with rfl | rfl | h
  · rfl
  · rfl
  · cases h

set_option maxRecDepth 8000 in
/-- C5 counterexample: two words "a" and "b" with chained records
a→b and b→c.  Matching by original word text would evolve them to
["b", "c"], but the source matches against the current text, so the
first entry takes both changes and ends as "c" while the second stays
"b". -/
theorem c5_evolve_match_counterexample :
    (evolveWords someKey none chainGen chainWords2 oneRule).1 =
      [{ id := "1", word := "c", ipa := "c", etymology := some "; x; y" },
       { id := "2", word := "b", ipa := "", etymology := none }] ∧
    specEvolveByOriginal chainWords2 chainRecords =
      [{ id := "1", word := "b", ipa := "b", etymology := some "; x" },
       { id := "2", word := "c", ipa := "c", etymology := some "; y" }] := by
  refine ⟨?_, rfl⟩
  have hc : chainWords2 = { id := "1", word := "a", ipa := "" } ::
      [{ id := "2", word := "b", ipa := "" }] := rfl
  have hr : oneRule = { rule := "a > b > c" } :: [] := rfl
  have hch : chunksOf 10 chainWords2 = [chainWords2] :=
    chunksOf_small 9 chainWords2 (by decide) (by decide)
  rw [hc, hr, evolveWords_cons someKey none chainGen _ _ _ _ (by decide), ← hc, ← hr, hch]
  rfl

/-- C6: an input with no opening brace, no opening bracket and no fenced
block makes `safeParseJSON` fail with the no-JSON-start error, and the
raw input text is logged as the diagnostic. -/
theorem c6_malformed_failure (text : String)
    (hlc : lcurl ∉ text.data) (hlb : '[' ∉ text.data)
    (hfence : fenceMatch text.data = none) :
    safeParseJSON text = .error noStartMsg ∧ safeParseJSONLog text = [text] := by
  have h := safeParseJSON_no_json text hlc hlb hfence
  refine ⟨h, ?_⟩
  unfold safeParseJSONLog
  rw [h]

/-- C6 witness: plain prose with no bracket characters. -/
theorem c6_malformed_failure_witness :
    safeParseJSON "hello world" = .error noStartMsg ∧
    safeParseJSONLog "hello world" = ["hello world"] :=
  c6_malformed_failure "hello world" (by decide) (by decide) rfl

/-- C7 (amended): a bare serialized JSON object — the shape every
operation of this service requests, with no duplicate keys and no
`undefined` — is returned by `safeParseJSON` unchanged, and parsing the
re-serialization of the result yields the same value again. -/
theorem c7_bare_json_identity (kvs : List (String × Json))
    (hwf : jsonWF (.obj kvs) = true) :
    safeParseJSON (Json.serialize (.obj kvs)) = .ok (.obj kvs) ∧
    Json.parseText (Json.serialize (.obj kvs)) = some (.obj kvs) :=
  ⟨safeParseJSON_ser_obj kvs hwf, parseText_serialize (.obj kvs) hwf⟩

/-- C7 witness: the object with the single member "a": 1. -/
theorem c7_bare_json_identity_witness :
    jsonWF (.obj [("a", .num 1)]) = true ∧
    safeParseJSON (Json.serialize (.obj [("a", .num 1)])) = .ok (.obj [("a", .num 1)]) :=
  ⟨rfl, (c7_bare_json_identity [("a", .num 1)] rfl).1⟩

/-- C7 counterexample: the bare valid JSON text `[{"a":1}]` is not
returned unchanged: the brace heuristic strips the array brackets and
the call returns the inner object instead of the array. -/
theorem c7_bare_array_counterexample :
    Json.parseText "[\x7b\"a\":1\x7d]" = some (.arr [.obj [("a", .num 1)]]) ∧
    safeParseJSON "[\x7b\"a\":1\x7d]" = .ok (.obj [("a", .num 1)]) :=
  ⟨rfl, rfl⟩

/-- C8 (amended): with an empty resolved credential every operation
returns its typed failure shape without sending any prompt — except that
an operation short-circuited by empty input returns its no-op result
first — and transport errors are likewise converted at each boundary,
except `generateWords`, which re-raises an enriched descriptive error. -/
theorem c8_credential_policy (stored env : Option String) (gen : Gen)
    (hkey : getApiKey stored env = "")
    (entries words lexicon : List LexiconEntry) (c : ProjectConstraints)
    (rules : List SoundChangeRule)
    (instruction word pd sentence gr vibe d : String)
    (count : Nat) (pr : Option ProjectConstraints) (morph : Option Json)
    (hne : entries ≠ []) (hw : words ≠ []) (hr : rules ≠ []) (hlex : lexicon ≠ []) :
    repairLexicon stored env gen entries c =
      ({ success := false, repairs := [],
         message := some ("AI Repair Failed: " ++ jsErrMsg configErrMsg
           ++ ". Verifica tu API key en Settings.") }, []) ∧
    evolveWords stored env gen words rules = (words, []) ∧
    processCommandAI stored env gen lexicon instruction c =
      (cmdFailure (some configErrMsg), []) ∧
    suggestIPA stored env gen word pd = ("/error/", []) ∧
    analyzeSyntaxOp stored env gen sentence gr morph =
      ("Error analyzing syntax. Verifica tu API key.", []) ∧
    generatePhonology stored env gen d = (defaultPhonology, []) ∧
    generateWords stored env gen count "" vibe pr =
      (.error (enrichGenErr configErrMsg), []) ∧
    (∀ (stored2 env2 : Option String), ¬ getApiKey stored2 env2 = "" →
      ∀ (lex2 : List LexiconEntry) (instr2 : String), lex2 ≠ [] →
      (processCommandAI stored2 env2 errGen lex2 instr2 c).1 =
        cmdFailure (some "boom")) ∧
    (∀ (stored2 env2 : Option String), ¬ getApiKey stored2 env2 = "" →
      (generateWords stored2 env2 errGen count "" vibe pr).1 =
        .error (enrichGenErr "boom")) := by
  refine ⟨?_, ?_, ?_, ?_, ?_, ?_, ?_, ?_, ?_⟩
  · unfold repairLexicon
    rw [if_neg hne, if_pos hkey]
  · unfold evolveWords
    cases words with
    | nil => exact absurd rfl hw
    | cons w ws =>
      cases rules with
      | nil => exact absurd rfl hr
      | cons r rs => rw [if_pos hkey]
  · unfold processCommandAI
    rw [if_neg hlex, if_pos hkey]
  · unfold suggestIPA
    rw [if_pos hkey]
  · unfold analyzeSyntaxOp
    rw [if_pos hkey]
  · exact generatePhonology_emptyKey stored env gen d hkey
  · unfold generateWords
    dsimp only
    rw [if_pos hkey]
  · intro stored2 env2 hkey2 lex2 instr2 hlex2
    unfold processCommandAI
    rw [if_neg hlex2, if_neg hkey2]
    rfl
  · intro stored2 env2 hkey2
    unfold generateWords
    dsimp only
    rw [if_neg hkey2]
    rfl

/-- C8 witness: an unset credential (no stored key, no environment key)
with nonempty inputs, and a nonempty key for the transport conjuncts. -/
theorem c8_credential_policy_witness :
    repairLexicon none none errGen cmdLex freeConstraints =
      ({ success := false, repairs := [],
         message := some ("AI Repair Failed: " ++ jsErrMsg configErrMsg
           ++ ". Verifica tu API key en Settings.") }, []) ∧
    evolveWords none none errGen cmdLex oneRule = (cmdLex, []) ∧
    processCommandAI none none errGen cmdLex "instr" freeConstraints =
      (cmdFailure (some configErrMsg), []) ∧
    (processCommandAI someKey none errGen cmdLex "instr" freeConstraints).1 =
      cmdFailure (some "boom") ∧
    (generateWords someKey none errGen 5 "" "v" none).1 =
      .error (enrichGenErr "boom") := by
  have h := c8_credential_policy none none errGen rfl cmdLex cmdLex cmdLex
    freeConstraints oneRule "instr" "w" "pd" "s" "gr" "v" "d" 5 none none
    (by decide) (by decide) (by simp [oneRule]) (by decide)
  exact ⟨h.1, h.2.1, h.2.2.1,
    h.2.2.2.2.2.2.2.1 someKey none (by decide) cmdLex "instr" (by decide),
    h.2.2.2.2.2.2.2.2 someKey none (by decide)⟩

/-- C8 counterexample: with an empty credential, `repairLexicon` on an
empty entry list returns success before the credential check, so not
every operation fails with a configuration error before the network
boundary. -/
theorem c8_empty_input_counterexample :
    getApiKey none none = "" ∧
    repairLexicon none none errGen [] freeConstraints =
      ({ success := true, repairs := [], message := none }, []) :=
  ⟨rfl, rfl⟩

/-- C9 (amended): neither merging operation mutates caller-owned data:
at heap level the entry store and the array store are only ever extended
at the end, so every pre-existing entry object and array cell is
unchanged by the call, and a successful `processCommandAI` returns a
freshly allocated result array; the evolution operation's failure and
early-return paths, however, return the argument array itself. -/
theorem c9_no_mutation_frame (stored env : Option String) (gen : Gen)
    (h : Heap) (argArr : Nat) (rules : List SoundChangeRule)
    (instruction : String) (c : ProjectConstraints) :
    (∃ t, (evolveWordsHeap stored env gen h argArr rules).1.entries = h.entries ++ t) ∧
    (∃ t, (evolveWordsHeap stored env gen h argArr rules).1.arrays = h.arrays ++ t) ∧
    (∃ t, (processCommandAIHeap stored env gen h argArr instruction c).1.entries
        = h.entries ++ t) ∧
    (∃ t, (processCommandAIHeap stored env gen h argArr instruction c).1.arrays
        = h.arrays ++ t) ∧
    ((processCommandAIHeap stored env gen h argArr instruction c).2.1.all
      (fun r => decide (h.arrays.length ≤ r)) = true) :=
  ⟨(evolveWordsHeap_frame stored env gen h argArr rules).1,
   (evolveWordsHeap_frame stored env gen h argArr rules).2,
   (processCommandAIHeap_frame stored env gen h argArr instruction c).1,
   (processCommandAIHeap_frame stored env gen h argArr instruction c).2,
   processCommandAIHeap_fresh stored env gen h argArr instruction c⟩

/-- C9 counterexample: the evolution operation's early-return and catch
paths return the caller's own array reference, not a freshly constructed
collection: with no rules, and likewise under a transport error, the
heap-level call returns the argument reference. -/
theorem c9_alias_counterexample :
    (evolveWordsHeap someKey none errGen heap1 0 []).2.1 = 0 ∧
    (evolveWordsHeap someKey none errGen heap1 0 []).1.arrays.length = 1 ∧
    (evolveWordsHeap someKey none errGen heap1 0 oneRule).2.1 = 0 := by
  refine ⟨rfl, rfl, ?_⟩
  have hch : chunksOf 10 ([0].map (heapEntry heap1)) = [[0].map (heapEntry heap1)] :=
    chunksOf_small 9 _ (by decide) (by decide)
  unfold evolveWordsHeap
  dsimp only
  rw [show heap1.arrays.getD 0 [] = [0] from rfl, show oneRule = { rule := "a > b > c" } :: [] from rfl]
  dsimp only
  rw [if_neg (by decide : ¬ getApiKey someKey none = ""), ← show oneRule = { rule := "a > b > c" } :: [] from rfl, hch]
  rfl

/-- C10: `generatePhonology` never rejects: with an empty credential,
under a transport error, and under an unparseable response it returns
the fixed default configuration, whose name is "Default Phonology" and
whose syllable structure is "CV"; and there is a response for which a
successful generation returns that same default, so the caller cannot
distinguish a failed call from a successful one. -/
theorem c10_phonology_never_rejects (stored env : Option String) (gen : Gen)
    (d m resp : String) (hkey0 : getApiKey stored env = "")
    (stored2 env2 : Option String) (hkey : ¬ getApiKey stored2 env2 = "") :
    generatePhonology stored env gen d = (defaultPhonology, []) ∧
    generatePhonology stored2 env2 (fun _ _ => .error m) d =
      (defaultPhonology, [phonologyPrompt d]) ∧
    (generatePhonology stored2 env2 (fun _ _ => .ok resp) d).1 =
      (match safeParsePhonologyConfig resp with
       | .ok cfg => cfg
       | .error _ => defaultPhonology) ∧
    defaultPhonology.name = "Default Phonology" ∧
    defaultPhonology.syllableStructure = "CV" ∧
    (∃ goodResp, safeParsePhonologyConfig goodResp = .ok defaultPhonology ∧
      (generatePhonology stored2 env2 (fun _ _ => .ok goodResp) d).1 = defaultPhonology) :=
  ⟨generatePhonology_emptyKey stored env gen d hkey0,
   generatePhonology_transport stored2 env2 m d hkey,
   generatePhonology_resp stored2 env2 resp d hkey,
   rfl, rfl,
   ⟨Json.serialize defaultPhonologyJson, defaultPhonologyJson_parse,
    by rw [generatePhonology_resp stored2 env2 (Json.serialize defaultPhonologyJson) d hkey,
           defaultPhonologyJson_parse]⟩⟩

/-- C10 witness: unset credential on one side, a nonempty key with a
failing transport and an unparseable response on the other. -/
theorem c10_phonology_never_rejects_witness :
    generatePhonology none none errGen "desc" = (defaultPhonology, []) ∧
    generatePhonology someKey none (fun _ _ => .error "boom") "desc" =
      (defaultPhonology, [phonologyPrompt "desc"]) ∧
    (generatePhonology someKey none (fun _ _ => .ok "no json here") "desc").1 =
      (match safeParsePhonologyConfig "no json here" with
       | .ok cfg => cfg
       | .error _ => defaultPhonology) := by
  have h := c10_phonology_never_rejects none none errGen "desc" "boom" "no json here"
    rfl someKey none (by decide)
  exact ⟨h.1, h.2.1, h.2.2.1⟩

end ConlangStudio
